import Mathlib

/-!
Verification development for the `dekl` declarative system manager.

This file gives a shallow embedding, in Lean, of the reconciliation core of
the repository (package planning, service reconciliation, hook ledger,
dotfile convergence, CLI gating), together with theorems settling the
frozen claims about it.  Every definition is translated directly from the
Python source named in its doc comment.
-/

set_option autoImplicit false

/-! ## Generic string helpers

The Python code uses `str.split(sep, 1)`, `str.endswith`, `str.startswith`
and path suffix manipulation.  Strings are modelled through their character
lists so that everything computes by kernel reduction. -/

/-- Splits a character list at the first occurrence of `c`, returning the
parts before and after it; `none` when `c` does not occur (Python's
`s.split(c, 1)` yields a single part there, and tuple unpacking raises). -/
def splitFirstAux (c : Char) : List Char → Option (List Char × List Char)
  | [] => none
  | d :: ds =>
    if d = c then some ([], ds)
    else
      match splitFirstAux c ds with
      | none => none
      | some (a, b) => some (d :: a, b)

/-- Models Python `s.split(c, 1)` with exactly one split, as used in
`services.py` (`key.split('|', 1)`) and `hooks.py` (`name.split(':', 1)`). -/
def splitFirst (c : Char) (s : String) : Option (String × String) :=
  match splitFirstAux c s.data with
  | none => none
  | some (a, b) => some (⟨a⟩, ⟨b⟩)

/-- Character-list suffix test used to model Python `str.endswith`. -/
def trailAux : List Char → List Char → Bool
  | [], _ => true
  | _ :: _, [] => false
  | a :: as, b :: bs => a == b && trailAux as bs

/-- Models Python `name.endswith(suffix)`. -/
def strEndsWith (s suffix : String) : Bool :=
  trailAux suffix.data.reverse s.data.reverse

/-- Models Python `s.startswith(p)` (used by `reset_hook` for prefix resets). -/
def strBeginsWith (s p : String) : Bool :=
  trailAux p.data s.data

/-- Models Python `c in s` membership of a character in a string. -/
def strHasChar (c : Char) (s : String) : Bool :=
  s.data.contains c

/-! ## Package planning (`src/dekl/plan.py`) -/

/-- Stable insertion of a string into a lexicographically sorted list. -/
def insSorted (x : String) : List String → List String
  | [] => [x]
  | y :: ys => if decide (x ≤ y) then x :: y :: ys else y :: insSorted x ys

/-- Models Python `sorted(<set of str>)`: duplicates removed (set semantics),
result in ascending lexicographic order. -/
def sortedSet (l : List String) : List String :=
  l.dedup.foldr insSorted []

/-- Translated from `compute_package_plan` in `src/dekl/plan.py` (lines 1-22).
`declared` is the ordered declared list; `installed` and `orphans` model the
Python sets (lists with set membership semantics).  Returns
`(to_install, to_remove_undeclared, to_remove_orphans)`. -/
def compute_package_plan (declared : List String) (installed : List String)
    (orphans : List String) (prune_enabled : Bool) :
    List String × List String × List String :=
  let to_install := declared.filter (fun p => !(installed.contains p))
  if !prune_enabled then (to_install, [], [])
  else
    (to_install,
     sortedSet (installed.filter (fun p => !(declared.contains p))),
     sortedSet orphans)

/-! ## Service configuration parsing (`src/dekl/services.py`, `src/dekl/config.py`)

`parse_service_config` accepts arbitrary YAML-decoded Python values, so the
embedding needs a model of those values and of Python exceptions. -/

/-- Model of a YAML-decoded Python value as seen by `parse_service_config`. -/
inductive PyVal where
  | pynone : PyVal
  | pystr : String → PyVal
  | pybool : Bool → PyVal
  | pyint : Int → PyVal
  | pydict : List (String × PyVal) → PyVal
  | pylist : List PyVal → PyVal

/-- Python truthiness of a `PyVal` (`if not name:`). -/
def pyTruthy : PyVal → Bool
  | .pynone => false
  | .pystr s => !(s.data.isEmpty)
  | .pybool b => b
  | .pyint n => !(n == 0)
  | .pydict d => !(d.isEmpty)
  | .pylist l => !(l.isEmpty)

/-- Models `dict.get(key)` (default `None`): first matching entry wins. -/
def pyDictGet (d : List (String × PyVal)) (key : String) : PyVal :=
  match d.find? (fun e => e.1 == key) with
  | some e => e.2
  | none => .pynone

/-- Models `dict.get(key, default)`. -/
def pyDictGetD (d : List (String × PyVal)) (key : String) (dflt : PyVal) : PyVal :=
  match d.find? (fun e => e.1 == key) with
  | some e => e.2
  | none => dflt

/-- Python exceptions that the modelled code can raise. -/
inductive PyErr where
  | attributeError : PyErr
  deriving DecidableEq

/-- Translated from `normalize_service_name` in `src/dekl/config.py`
(lines 152-156): appends `.service` unless the name already carries a
`.service`, `.socket` or `.timer` suffix. -/
def normalize_service_name (name : String) : String :=
  if strEndsWith name (".service") || strEndsWith name (".socket")
      || strEndsWith name (".timer") then name
  else name ++ (".service")

/-- Result record of `parse_service_config`: mirrors the `Service` dataclass
in `src/dekl/services.py` with the raw Python values the code actually
stores in `user` and `enabled` (the dataclass does not enforce its type
annotations). -/
structure ServiceV where
  name : String
  user : PyVal
  enabled : PyVal

/-- Translated from `parse_service_config` in `src/dekl/services.py`
(lines 18-38).  `Except` models an uncaught Python exception:
`normalize_service_name(name)` raises `AttributeError` when a truthy
non-string sits under the `name` key of a dict declaration. -/
def parse_service_config (config : PyVal) : Except PyErr (Option ServiceV) :=
  match config with
  | .pynone => .ok none
  | .pystr s => .ok (some ⟨normalize_service_name s, .pybool false, .pybool true⟩)
  | .pydict d =>
    let name := pyDictGet d ("name")
    if !(pyTruthy name) then .ok none
    else
      match name with
      | .pystr s =>
        .ok (some ⟨normalize_service_name s,
                   pyDictGetD d ("user") (.pybool false),
                   pyDictGetD d ("enabled") (.pybool true)⟩)
      | _ => .error .attributeError
  | _ => .ok none

/-! ## Service reconciliation (`src/dekl/services.py`) -/

/-- The `Service` dataclass of `src/dekl/services.py` restricted to its
annotated field types, as produced by well-formed declarations and consumed
by `sync_services`. -/
structure Service where
  name : String
  user : Bool
  enabled : Bool
  deriving DecidableEq

/-- The ledger key `f'{s.name}|{s.user}'` written by `save_tracked_services`
and looked up by `sync_services`. -/
def svcKey (name : String) (user : Bool) : String :=
  name ++ ("|") ++ (if user then ("True") else ("False"))

/-- The persisted state file of `src/dekl/state.py`: the `hooks_run` and
`services` keys of the YAML mapping, each modelled as the list of keys that
map to `True`. -/
structure DState where
  hooks_run : List String
  services : List String
  deriving DecidableEq

/-- Keys of the `declared_map` built in `sync_services` (lines 130-133):
one `name|user` key per declared service with `enabled` true. -/
def declaredEnabledKeys (declared : List Service) : List String :=
  (declared.filter (fun s => s.enabled)).map (fun s => svcKey s.name s.user)

/-- The removal branch of `sync_services` (`src/dekl/services.py` lines
142-148): every tracked ledger key absent from `declared_map` is split at
its first `|`, and the decoded service is queued for disable when the probe
still reports it enabled.  `none` models the `ValueError` Python raises
when a tracked key contains no `|` at all. -/
def removal_disable (tracked : List String) (declared_map : List String)
    (probe : String → Bool → Bool) : Option (List Service) :=
  match tracked with
  | [] => some []
  | key :: rest =>
    if declared_map.contains key then removal_disable rest declared_map probe
    else
      match splitFirst '|' key with
      | none => none
      | some (name, userStr) =>
        let user := userStr == ("True")
        match removal_disable rest declared_map probe with
        | none => none
        | some tail =>
          if probe name user then some (⟨name, user, false⟩ :: tail) else some tail

/-- External systemd actions performed by `sync_services`. -/
inductive SAct where
  | enabled : Service → SAct
  | disabled : Service → SAct
  deriving DecidableEq

/-- Environment of `sync_services`: the `systemctl is-enabled` probe and the
success or failure of each `systemctl enable/disable` invocation. -/
structure SvcEnv where
  probe : String → Bool → Bool
  enableOk : String → Bool → Bool
  disableOk : String → Bool → Bool

/-- The enable loop of `sync_services` (lines 172-176): actions are applied
in order and the first failure aborts the rest of the batch. -/
def applyEnables (env : SvcEnv) : List Service → List SAct × Bool
  | [] => ([], true)
  | s :: rest =>
    if env.enableOk s.name s.user then
      let r := applyEnables env rest
      (SAct.enabled s :: r.1, r.2)
    else ([], false)

/-- The disable loop of `sync_services` (lines 178-182). -/
def applyDisables (env : SvcEnv) : List Service → List SAct × Bool
  | [] => ([], true)
  | s :: rest =>
    if env.disableOk s.name s.user then
      let r := applyDisables env rest
      (SAct.disabled s :: r.1, r.2)
    else ([], false)

/-- Translated from `sync_services` in `src/dekl/services.py` (lines
125-186).  Returns the final persisted state, the boolean result, and the
systemd actions that were actually applied; `none` models an uncaught
exception while decoding a tracked key.  The ledger is written once, by
`save_tracked_services(declared)`, only after every enable and disable in
the batch succeeded. -/
def sync_services (declared : List Service) (st : DState) (env : SvcEnv)
    (dryRun : Bool) : Option (DState × Bool × List SAct) :=
  let declared_map := declaredEnabledKeys declared
  let to_enable := declared.filter (fun s => s.enabled && !(env.probe s.name s.user))
  match removal_disable st.services declared_map env.probe with
  | none => none
  | some removalList =>
    let extraDisable := declared.filter (fun s => !s.enabled && env.probe s.name s.user)
    let to_disable := removalList ++ extraDisable
    if to_enable.isEmpty && to_disable.isEmpty then some (st, true, [])
    else if dryRun then some (st, true, [])
    else
      match applyEnables env to_enable with
      | (eacts, false) => some (st, false, eacts)
      | (eacts, true) =>
        match applyDisables env to_disable with
        | (dacts, false) => some (st, false, eacts ++ dacts)
        | (dacts, true) =>
          some ({ st with services := declared_map }, true, eacts ++ dacts)

/-! ## Hook ledger and hook running (`src/dekl/hooks.py`) -/

/-- Translated from `should_run_hook` in `src/dekl/hooks.py` (lines 83-90):
an `always` hook always runs; otherwise the hook runs when its key is
absent from the `hooks_run` ledger. -/
def should_run_hook (hook_key : String) (always : Bool)
    (hooks_run : List String) : Bool :=
  always || !(hooks_run.contains hook_key)

/-- Translated from `mark_hook_run` in `src/dekl/hooks.py` (lines 93-99):
sets the key in the ledger and persists immediately (`save_state`). -/
def mark_hook_run (hook_key : String) (hooks_run : List String) : List String :=
  hook_key :: hooks_run

/-- One non-dry invocation of `run_module_hook` / `run_host_hook`
(`src/dekl/hooks.py` lines 113-139) for a hook that is present, given the
exit status `execOk` of its script.  Returns the persisted ledger after the
call, whether the script was executed, and the boolean result. -/
def run_hook_step (hook_key : String) (always : Bool) (execOk : Bool)
    (dryRun : Bool) (hooks_run : List String) : List String × Bool × Bool :=
  if !(should_run_hook hook_key always hooks_run) then (hooks_run, false, true)
  else if dryRun then (hooks_run, false, true)
  else if !execOk then (hooks_run, true, false)
  else if !always then (mark_hook_run hook_key hooks_run, true, true)
  else (hooks_run, true, true)

/-- Repeated non-dry-run invocations of the hook runner for one hook, one
invocation per entry of `outcomes` (the exit status of the script on that
invocation).  Returns the final ledger and how many times the script was
executed.  Later invocations happen regardless of earlier results,
modelling separate `sync` runs. -/
def runHookRepeat (hook_key : String) (always : Bool) :
    List Bool → List String → List String × Nat
  | [], hooks_run => (hooks_run, 0)
  | ok :: more, hooks_run =>
    let step := run_hook_step hook_key always ok false hooks_run
    let rest := runHookRepeat hook_key always more step.1
    (rest.1, (if step.2.1 then 1 else 0) + rest.2)

/-- Translated from `reset_hook` in `src/dekl/hooks.py` (lines 193-216):
a name containing `:` removes exactly that ledger key, otherwise every key
with prefix `name:` is removed. -/
def reset_hook (name : String) (hooks_run : List String) : List String :=
  if strHasChar ':' name then hooks_run.filter (fun k => !(k == name))
  else hooks_run.filter (fun k => !(strBeginsWith k (name ++ (":"))))

/-- One sync run over a batch of present hooks (the per-module loops in
`src/dekl/cli.py` lines 404-412 and 460-468): each entry is
`(key, always, execOk)`; the first failing hook aborts the remaining ones.
The ledger is persisted by `mark_hook_run` inside each successful step,
before the next hook is attempted. -/
def runHooksSeq : List (String × Bool × Bool) → List String → List String × Bool
  | [], hooks_run => (hooks_run, true)
  | (key, always, ok) :: rest, hooks_run =>
    let step := run_hook_step key always ok false hooks_run
    if step.2.2 then runHooksSeq rest step.1 else (step.1, false)

/-- Translated from `force_run_hook` in `src/dekl/hooks.py` (lines
171-190).  `hostHooks` maps a host hook type to the exit status of its
script; `moduleHooks` does the same per module.  The persisted state `st`
is threaded to expose what the function does to it: nothing (the code
never calls `mark_hook_run` or `save_state`). -/
def force_run_hook (name : String) (hostHooks : List (String × Bool))
    (moduleHooks : String → List (String × Bool)) (st : DState) :
    DState × Bool :=
  match splitFirst ':' name with
  | none => (st, false)
  | some (target, hook_type) =>
    if target == ("host") then
      match (hostHooks.find? (fun e => e.1 == hook_type)) with
      | none => (st, false)
      | some e => (st, e.2)
    else
      match ((moduleHooks target).find? (fun e => e.1 == hook_type)) with
      | none => (st, false)
      | some e => (st, e.2)

/-! ## CLI gating (`src/dekl/cli.py`) -/

/-- Console and process events of the modelled CLI commands. -/
inductive Ev where
  | info : String → Ev
  | warn : String → Ev
  | err : String → Ev
  | act : String → Ev
  deriving DecidableEq

/-- Translated from the head of the `sync` command in `src/dekl/cli.py`
(lines 356-363): `validate_modules` is consulted first, and a non-empty
missing list reports the names and exits with code 1 before any later
phase runs.  `phases` stands for every event the rest of the command
would emit (bootstrap, hooks, package, dotfile and service mutations).
Returns the emitted events and the exit code (`none` = normal return). -/
def sync_cmd (missing : List String) (phases : List Ev) : List Ev × Option Nat :=
  if missing.isEmpty then (phases, none)
  else
    (Ev.err ("Missing modules:") :: missing.map Ev.warn
       ++ [Ev.err ("Fix your host config or create the missing modules.")],
     some 1)

/-- Translated from the head of the `status` command in `src/dekl/cli.py`
(lines 307-344): missing modules are only warned about, after which the
read-only report (`infoLines`) is printed and the command returns
normally. -/
def status_cmd (missing : List String) (infoLines : List String) :
    List Ev × Option Nat :=
  ((if missing.isEmpty then []
    else Ev.warn ("Missing modules:") :: missing.map Ev.warn)
     ++ infoLines.map Ev.info,
   none)

/-! ## Dotfiles (`src/dekl/dotfiles.py`) -/

/-- A resolved dotfile link, as produced by `get_module_dotfiles`:
`{source, target, module}` with paths modelled as plain strings. -/
structure Dotfile where
  source : String
  target : String
  modname : String
  deriving DecidableEq

/-- A conflict record of `check_conflicts`. -/
structure Conflict where
  target : String
  modules : List String
  deriving DecidableEq

/-- The loop body of `check_conflicts` (`src/dekl/dotfiles.py` lines
85-100), with `seen` the `targets` dict mapping each target seen so far to
the first module that claimed it. -/
def conflictsAux (seen : List (String × String)) : List Dotfile → List Conflict
  | [] => []
  | d :: rest =>
    match seen.find? (fun e => e.1 == d.target) with
    | some e => ⟨d.target, [e.2, d.modname]⟩ :: conflictsAux seen rest
    | none => conflictsAux ((d.target, d.modname) :: seen) rest

/-- Translated from `check_conflicts` in `src/dekl/dotfiles.py`
(lines 85-100). -/
def check_conflicts (dotfiles : List Dotfile) : List Conflict :=
  conflictsAux [] dotfiles

/-- A filesystem object: regular file, directory, or symbolic link with its
stored referent path. -/
inductive Entry where
  | file : Entry
  | dir : Entry
  | symlink : String → Entry
  deriving DecidableEq

/-- The filesystem, modelled as an association list from paths to entries
(absent path = nothing exists there). -/
abbrev FS : Type := List (String × Entry)

/-- Entry stored at a path. -/
def fsGet (fs : FS) (p : String) : Option Entry :=
  match fs.find? (fun e => e.1 == p) with
  | some e => some e.2
  | none => none

/-- Removes the entry at a path (`Path.unlink`). -/
def fsDel (fs : FS) (p : String) : FS :=
  fs.filter (fun e => !(e.1 == p))

/-- Writes an entry at a path, replacing any previous one. -/
def fsSet (fs : FS) (p : String) (en : Entry) : FS :=
  (p, en) :: fsDel fs p

/-- Models `Path.rename` (`os.rename`): moves the entry at `src` to `dst`,
silently replacing a file or symlink already at `dst`. -/
def fsRename (fs : FS) (src dst : String) : FS :=
  match fsGet fs src with
  | some en => fsSet (fsDel fs src) dst en
  | none => fs

/-- Models `Path.is_symlink()`. -/
def isSymlinkAt (fs : FS) (p : String) : Bool :=
  match fsGet fs p with
  | some (.symlink _) => true
  | _ => false

/-- Models `target.exists() and not target.is_symlink()` of
`sync_dotfiles`: `Path.exists` follows symlinks, but combined with the
second conjunct the test holds exactly when a regular file or directory
sits at the path. -/
def existsNotSymlink (fs : FS) (p : String) : Bool :=
  match fsGet fs p with
  | some .file => true
  | some .dir => true
  | _ => false

/-- Symlink chain following with explicit fuel. -/
def resolveFuel (fs : FS) : Nat → String → String
  | 0, p => p
  | n + 1, p =>
    match fsGet fs p with
    | some (.symlink q) => resolveFuel fs n q
    | _ => p

/-- Models `Path.resolve()` for acyclic symlink chains: `fs.length + 1`
steps of fuel suffice to follow any chain without revisiting a path.
(Python raises on a symlink loop; the theorems below keep loops out of
scope through their hypotheses.) -/
def resolvePath (fs : FS) (p : String) : String :=
  resolveFuel fs (fs.length + 1) p

/-- The parent path: everything before the last `/` (Python
`Path.parent`). -/
def parentData (l : List Char) : List Char :=
  ((l.reverse.dropWhile (fun c => !(c == '/'))).drop 1).reverse

/-- Models `target.parent` on string paths. -/
def parentPath (p : String) : String :=
  ⟨parentData p.data⟩

/-- Link mutations performed by `sync_dotfiles`. -/
inductive Mut where
  | rename : String → String → Mut
  | unlink : String → Mut
  | mkdir : String → Mut
  | symlink : String → String → Mut
  deriving DecidableEq

/-- Models `target.parent.mkdir(parents=True, exist_ok=True)`: walks up
from the path creating missing directories, leaving every existing entry
alone.  Fuel is the path length; the parent path is strictly shorter, so
the fuel never runs out. -/
def mkdirFuel (fs : FS) : Nat → String → FS × List Mut
  | 0, _ => (fs, [])
  | n + 1, p =>
    if p == ("") || p == ("/") then (fs, [])
    else
      let up := mkdirFuel fs n (parentPath p)
      if (fsGet up.1 p).isSome then up
      else (fsSet up.1 p .dir, up.2 ++ [.mkdir p])

/-- Models `target.parent.mkdir(parents=True, exist_ok=True)` in
`sync_dotfiles`. -/
def mkdirParents (fs : FS) (p : String) : FS × List Mut :=
  mkdirFuel fs (p.data.length + 1) p

/-- The backup path of `sync_dotfiles`:
`target.with_suffix(target.suffix + '.bak')`, which appends `.bak` to the
full name. -/
def backupPath (p : String) : String :=
  p ++ (".bak")

/-- The no-op test of `sync_dotfiles` (line 147): the target is already a
symlink resolving to the same canonical path as the source. -/
def noopCheck (fs : FS) (d : Dotfile) : Bool :=
  isSymlinkAt fs d.target && (resolvePath fs d.target == resolvePath fs d.source)

/-- Lines 154-157 of `sync_dotfiles`: a regular file or directory at the
target is renamed to the backup path before replacement. -/
def backupStep (fs : FS) (d : Dotfile) : FS × List Mut :=
  if existsNotSymlink fs d.target then
    (fsRename fs d.target (backupPath d.target),
     [Mut.rename d.target (backupPath d.target)])
  else (fs, ([] : List Mut))

/-- Lines 159-160 of `sync_dotfiles`: a symlink at the target (pointing
elsewhere) is unlinked. -/
def unlinkStep (fs : FS) (d : Dotfile) : FS × List Mut :=
  if isSymlinkAt fs d.target then (fsDel fs d.target, [Mut.unlink d.target])
  else (fs, ([] : List Mut))

/-- The mutating branch of the `sync_dotfiles` loop body (lines 154-164):
back up a regular file or directory at the target, unlink a foreign
symlink, create parent directories, link target to source. -/
def applyLink (fs : FS) (d : Dotfile) : FS × List Mut :=
  let s1 := backupStep fs d
  let s2 := unlinkStep s1.1 d
  let s3 := mkdirParents s2.1 (parentPath d.target)
  (fsSet s3.1 d.target (.symlink d.source),
   s1.2 ++ s2.2 ++ s3.2 ++ [Mut.symlink d.target d.source])

/-- The per-link loop of `sync_dotfiles` (lines 143-164). -/
def syncLinks (dryRun : Bool) : FS → List Dotfile → FS × List Mut
  | fs, [] => (fs, [])
  | fs, d :: rest =>
    if noopCheck fs d then syncLinks dryRun fs rest
    else if dryRun then syncLinks dryRun fs rest
    else
      let step := applyLink fs d
      let more := syncLinks dryRun step.1 rest
      (more.1, step.2 ++ more.2)

/-- Translated from `sync_dotfiles` in `src/dekl/dotfiles.py` (lines
128-166): an empty link set succeeds immediately; any conflict aborts
before the loop with failure and no filesystem access; otherwise every
link is converged.  Returns the final filesystem, the link mutations
performed, and the boolean result. -/
def sync_dotfiles (dotfiles : List Dotfile) (fs : FS) (dryRun : Bool) :
    FS × List Mut × Bool :=
  if dotfiles.isEmpty then (fs, [], true)
  else if !(check_conflicts dotfiles).isEmpty then (fs, [], false)
  else
    let r := syncLinks dryRun fs dotfiles
    (r.1, r.2, true)

/-! ## Basic facts about the string helpers -/

theorem str_data_append (s t : String) : (s ++ t).data = s.data ++ t.data := by
  cases s; cases t; rfl

theorem str_mk_data (s : String) : (⟨s.data⟩ : String) = s := rfl

theorem splitFirstAux_of_not_mem (c : Char) (l₁ l₂ : List Char) (h : ¬ c ∈ l₁) :
    splitFirstAux c (l₁ ++ c :: l₂) = some (l₁, l₂) := by
  induction l₁ with
  | nil => simp [splitFirstAux]
  | cons d ds ih =>
    have hd : ¬ d = c := fun hdc => h (hdc ▸ List.mem_cons_self d ds)
    have hds : ¬ c ∈ ds := fun hm => h (List.mem_cons_of_mem d hm)
    simp [splitFirstAux, hd, ih hds]

theorem svcKey_data (n : String) (u : Bool) :
    (svcKey n u).data = n.data ++ '|' :: (if u then ("True") else ("False") : String).data := by
  cases u <;> simp [svcKey, str_data_append]

theorem splitFirst_svcKey (n : String) (u : Bool) (h : ¬ '|' ∈ n.data) :
    splitFirst '|' (svcKey n u) =
      some (n, if u then ("True") else ("False")) := by
  have hx := splitFirstAux_of_not_mem '|' n.data
    (if u then ("True") else ("False") : String).data h
  simp only [splitFirst, svcKey_data, hx]

theorem svcKey_inj (n m : String) (u v : Bool)
    (hn : ¬ '|' ∈ n.data) (hm : ¬ '|' ∈ m.data)
    (h : svcKey n u = svcKey m v) : n = m ∧ u = v := by
  have h1 := splitFirst_svcKey n u hn
  have h2 := splitFirst_svcKey m v hm
  rw [h, h2] at h1
  have hnm : m = n ∧ ((if v then ("True") else ("False") : String)
      = if u then ("True") else ("False")) := by
    constructor
    · exact congrArg Prod.fst (Option.some.inj h1)
    · exact congrArg Prod.snd (Option.some.inj h1)
  refine ⟨hnm.1.symm, ?_⟩
  rcases hnm with ⟨-, h2⟩
  cases u <;> cases v <;> first | rfl | (exfalso; exact absurd h2 (by decide))

/-! ## Claim C1: package install list -/

/-- Claim C1, counterexample: as stated the claim is false.  With the
declared sequence `["a", "a"]` and nothing installed,
`compute_package_plan` returns an install list `["a", "a"]` that does
contain a duplicate, so `to_install` is not duplicate-free when the
declared sequence has duplicates. -/
theorem c1_counterexample :
    compute_package_plan ["a", "a"] [] [] false = (["a", "a"], [], [])
      ∧ ¬ (compute_package_plan ["a", "a"] [] [] false).1.Nodup := by
  constructor
  · rfl
  · decide

/-- Claim C1, amended: the `toInstall` component of
`compute_package_plan(D, I, orphans, prune)` is exactly the sublist of `D`
of elements not in `I`, with `D`'s order and multiplicity preserved; it is
duplicate-free whenever `D` itself is (de-duplication happens upstream in
`get_declared_packages`, not in the planner). -/
theorem c1_amended (D I o : List String) (pr : Bool) :
    (compute_package_plan D I o pr).1 = D.filter (fun p => !(I.contains p))
      ∧ (compute_package_plan D I o pr).1.Sublist D
      ∧ (∀ x, x ∈ (compute_package_plan D I o pr).1 ↔ x ∈ D ∧ ¬ x ∈ I)
      ∧ (D.Nodup → (compute_package_plan D I o pr).1.Nodup) := by
  have h1 : (compute_package_plan D I o pr).1 = D.filter (fun p => !(I.contains p)) := by
    cases pr <;> rfl
  refine ⟨h1, ?_, ?_, ?_⟩
  · rw [h1]; exact List.filter_sublist D
  · intro x
    rw [h1]
    simp [List.mem_filter, List.contains, List.elem_iff]
  · intro hD
    rw [h1]
    exact hD.filter _

/-- Claim C1, witness for the amended theorem at a concrete input: a
duplicate-free declared list yields a duplicate-free install list. -/
theorem c1_witness :
    (["b", "a", "c"] : List String).Nodup
      ∧ (compute_package_plan ["b", "a", "c"] ["a"] [] true).1.Nodup :=
  ⟨by decide, (c1_amended ["b", "a", "c"] ["a"] [] true).2.2.2 (by decide)⟩

/-! ## Claim C3: advisory lists under prune -/

/-- Claim C3: contrary to the claim (and to the spec and to the expectations
of its caller `cli.py`, which imports a `PackagePlan` class that
`plan.py` does not define and prints `undeclared` and `orphans` as advisory
output when prune is disabled), `compute_package_plan` returns empty
`undeclared` and `orphans` lists whenever `prune_enabled` is false — here
with one installed-but-undeclared package and one orphan. -/
theorem c3_code_behavior :
    compute_package_plan [] ["a"] ["b"] false = ([], [], []) := rfl

/-! ## Claim C10: service declaration parsing -/

/-- Claim C10, counterexample: the claim says `parse_service_config`
totally classifies its input without raising, but a dict whose `name` key
holds a truthy non-string makes `normalize_service_name` call
`.endswith` on a non-string, raising `AttributeError`
(Python input `{'name': 5}`). -/
theorem c10_counterexample :
    parse_service_config (.pydict [(("name"), .pyint 5)])
      = .error .attributeError := rfl

/-- Claim C10, amended: `parse_service_config` classifies every input
without raising, except for a dict whose `name` key holds a truthy
non-string, where it raises `AttributeError`.  It returns `None` for
`None`, for any value that is neither a string nor a dict, and for a dict
whose `name` is absent or falsy; a bare string yields a Service with
`user=False` and `enabled=True`; a dict with a truthy string name takes
`user` (default `False`) and `enabled` (default `True`) from the dict. -/
theorem c10_amended :
    (parse_service_config .pynone = .ok none)
      ∧ (∀ s, parse_service_config (.pystr s)
          = .ok (some ⟨normalize_service_name s, .pybool false, .pybool true⟩))
      ∧ (∀ b, parse_service_config (.pybool b) = .ok none)
      ∧ (∀ n, parse_service_config (.pyint n) = .ok none)
      ∧ (∀ l, parse_service_config (.pylist l) = .ok none)
      ∧ (∀ d, pyTruthy (pyDictGet d ("name")) = false →
          parse_service_config (.pydict d) = .ok none)
      ∧ (∀ d s, pyDictGet d ("name") = .pystr s → pyTruthy (.pystr s) = true →
          parse_service_config (.pydict d)
            = .ok (some ⟨normalize_service_name s,
                         pyDictGetD d ("user") (.pybool false),
                         pyDictGetD d ("enabled") (.pybool true)⟩))
      ∧ (∀ v, (∀ e, ¬ parse_service_config v = .error e)
          ∨ (∃ d, v = .pydict d ∧ pyTruthy (pyDictGet d ("name")) = true
              ∧ ∀ s, ¬ pyDictGet d ("name") = .pystr s)) := by
  refine ⟨rfl, fun s => rfl, fun b => rfl, fun n => rfl, fun l => rfl, ?_, ?_, ?_⟩
  · intro d hd
    simp [parse_service_config, hd]
  · intro d s hd hs
    simp [parse_service_config, hd, hs]
  · intro v
    match v with
    | .pynone => exact Or.inl (fun e h => by exact absurd h (by simp [parse_service_config]))
    | .pystr s => exact Or.inl (fun e h => by exact absurd h (by simp [parse_service_config]))
    | .pybool b => exact Or.inl (fun e h => by exact absurd h (by simp [parse_service_config]))
    | .pyint n => exact Or.inl (fun e h => by exact absurd h (by simp [parse_service_config]))
    | .pylist l => exact Or.inl (fun e h => by exact absurd h (by simp [parse_service_config]))
    | .pydict d =>
      by_cases htr : pyTruthy (pyDictGet d ("name")) = true
      · match hname : pyDictGet d ("name") with
        | .pystr s =>
          refine Or.inl (fun e h => ?_)
          rw [parse_service_config, hname] at h
          rw [hname] at htr
          simp [htr] at h
        | .pynone => rw [hname] at htr; exact absurd htr (by simp [pyTruthy])
        | .pybool b =>
          refine Or.inr ⟨d, rfl, htr, fun s hs => ?_⟩
          rw [hname] at hs
          exact PyVal.noConfusion hs
        | .pyint n =>
          refine Or.inr ⟨d, rfl, htr, fun s hs => ?_⟩
          rw [hname] at hs
          exact PyVal.noConfusion hs
        | .pydict d2 =>
          refine Or.inr ⟨d, rfl, htr, fun s hs => ?_⟩
          rw [hname] at hs
          exact PyVal.noConfusion hs
        | .pylist l2 =>
          refine Or.inr ⟨d, rfl, htr, fun s hs => ?_⟩
          rw [hname] at hs
          exact PyVal.noConfusion hs
      · refine Or.inl (fun e h => ?_)
        rw [parse_service_config] at h
        simp [htr] at h

/-- Claim C10, witness for the amended theorem at concrete inputs: a falsy
name yields `None`, and a dict declaration with a string name and absent
`user`/`enabled` gets the documented defaults. -/
theorem c10_witness :
    parse_service_config (.pydict [(("name"), .pystr (""))]) = .ok none
      ∧ parse_service_config (.pydict [(("name"), .pystr ("sshd"))])
          = .ok (some ⟨("sshd.service"), .pybool false, .pybool true⟩) := by
  constructor
  · exact (c10_amended.2.2.2.2.2.1) [(("name"), .pystr (""))] (by rfl)
  · have h := (c10_amended.2.2.2.2.2.2.1) [(("name"), .pystr ("sshd"))] ("sshd")
      (by rfl) (by decide)
    rw [h]
    rfl

/-! ## Claim C8: missing modules gate sync but not status -/

/-- Claim C8: when `validate_modules` reports missing modules, the `sync`
command exits with code 1 having emitted only error/warning output — no
mutating action of any later phase — while the read-only `status` command
returns normally, warns about each missing name, and emits no mutating
action either. -/
theorem c8_missing_gate (missing : List String) (h : ¬ missing = []) :
    (∀ phases, (sync_cmd missing phases).2 = some 1
        ∧ ∀ e ∈ (sync_cmd missing phases).1, ∀ a, ¬ e = Ev.act a)
      ∧ (∀ infos, (status_cmd missing infos).2 = none
          ∧ (∀ m ∈ missing, Ev.warn m ∈ (status_cmd missing infos).1)
          ∧ ∀ e ∈ (status_cmd missing infos).1, ∀ a, ¬ e = Ev.act a) := by
  have hne : missing.isEmpty = false := by
    cases missing with
    | nil => exact absurd rfl h
    | cons x xs => rfl
  constructor
  · intro phases
    constructor
    · simp [sync_cmd, hne]
    · intro e he a
      simp only [sync_cmd, hne, Bool.false_eq_true, if_false] at he
      rcases List.mem_cons.mp he with rfl | he2
      · exact fun hh => Ev.noConfusion hh
      · rcases List.mem_append.mp he2 with he3 | he4
        · rcases List.mem_map.mp he3 with ⟨m, -, rfl⟩
          exact fun hh => Ev.noConfusion hh
        · rcases List.mem_singleton.mp he4 with rfl
          exact fun hh => Ev.noConfusion hh
  · intro infos
    refine ⟨rfl, ?_, ?_⟩
    · intro m hm
      apply List.mem_append.mpr
      left
      simp only [hne, Bool.false_eq_true, if_false]
      exact List.mem_cons_of_mem _ (List.mem_map.mpr ⟨m, hm, rfl⟩)
    · intro e he a
      rcases List.mem_append.mp he with he1 | he2
      · simp only [hne, Bool.false_eq_true, if_false] at he1
        rcases List.mem_cons.mp he1 with rfl | he3
        · exact fun hh => Ev.noConfusion hh
        · rcases List.mem_map.mp he3 with ⟨m, -, rfl⟩
          exact fun hh => Ev.noConfusion hh
      · rcases List.mem_map.mp he2 with ⟨m, -, rfl⟩
        exact fun hh => Ev.noConfusion hh

/-- Claim C8, witness at a concrete input: one missing module gates a sync
whose remaining pipeline would have installed a package, while status
still reports. -/
theorem c8_witness :
    (sync_cmd ["base"] [Ev.act ("install neovim")]).2 = some 1
      ∧ Ev.warn ("base") ∈ (status_cmd ["base"] [("Host: x")]).1 := by
  have h := c8_missing_gate ["base"] (by simp)
  exact ⟨(h.1 [Ev.act ("install neovim")]).1,
         ((h.2 [("Host: x")]).2.1 ("base") (by simp))⟩

/-! ## Claim C9: force_run_hook never touches the ledger -/

/-- Claim C9: `force_run_hook` never modifies the persisted state: in every
branch (malformed name, unknown hook, successful or failed execution) the
returned state equals the input state, so a non-always hook that never ran
through the normal path still satisfies `should_run_hook` afterwards. -/
theorem c9_force_run_frame (name : String) (hostHooks : List (String × Bool))
    (moduleHooks : String → List (String × Bool)) (st : DState) :
    (force_run_hook name hostHooks moduleHooks st).1 = st
      ∧ (∀ key al,
          should_run_hook key al ((force_run_hook name hostHooks moduleHooks st).1).hooks_run
            = should_run_hook key al st.hooks_run) := by
  have h : (force_run_hook name hostHooks moduleHooks st).1 = st := by
    unfold force_run_hook
    rcases splitFirst ':' name with - | p
    · rfl
    · dsimp only
      split
      · split <;> rfl
      · split <;> rfl
  exact ⟨h, fun key al => by rw [h]⟩

/-! ## Claim C6: hooks run once until reset -/

theorem strList_contains_iff (l : List String) (x : String) :
    l.contains x = true ↔ x ∈ l := by
  simp [List.contains, List.elem_iff]

theorem run_hook_step_skip (key : String) (ok : Bool) (st : List String)
    (h : key ∈ st) :
    run_hook_step key false ok false st = (st, false, true) := by
  have hc : st.contains key = true := (strList_contains_iff st key).mpr h
  simp only [run_hook_step, should_run_hook, hc, Bool.false_or, Bool.not_true,
    Bool.not_false, Bool.true_and, if_pos]

theorem runHookRepeat_skip (key : String) (os : List Bool) (st : List String)
    (h : key ∈ st) :
    runHookRepeat key false os st = (st, 0) := by
  induction os with
  | nil => rfl
  | cons o os ih =>
    simp [runHookRepeat, run_hook_step_skip key o st h, ih]

theorem runHookRepeat_fresh (key : String) (os : List Bool) (st : List String)
    (hnew : ¬ key ∈ st) (hok : ∀ b ∈ os, b = true) (hne : ¬ os = []) :
    runHookRepeat key false os st = (key :: st, 1) := by
  cases os with
  | nil => exact absurd rfl hne
  | cons o os2 =>
    have ho : o = true := hok o (List.mem_cons_self o os2)
    have hc : st.contains key = false := by
      cases hcc : st.contains key with
      | false => rfl
      | true => exact absurd ((strList_contains_iff st key).mp hcc) hnew
    subst ho
    have hstep : run_hook_step key false true false st = (key :: st, true, true) := by
      simp only [run_hook_step, should_run_hook, mark_hook_run, hc, Bool.false_or,
        Bool.not_false, Bool.not_true]
      rfl
    have hrest : runHookRepeat key false os2 (key :: st) = (key :: st, 0) :=
      runHookRepeat_skip key os2 (key :: st) (List.mem_cons_self key st)
    simp [runHookRepeat, hstep, hrest]

/-- Claim C6, counterexample: as stated (the script of a non-always hook
executes exactly once across repeated non-dry-run invocations until reset)
the claim is false when an execution fails: with the ledger initially
lacking the key and no reset in between, outcomes `[failure, success]`
execute the script twice. -/
theorem c6_counterexample :
    runHookRepeat ("m:pre") false [false, true] [] = ([("m:pre")], 2)
      ∧ ¬ ((runHookRepeat ("m:pre") false [false, true] []).2 = 1) := by
  constructor
  · rfl
  · decide

/-- Claim C6, amended: for a non-always hook whose executions succeed, the
script executes exactly once across any number of repeated non-dry-run
invocations (on the first one, where the ledger lacks its key); afterwards
the key is in the ledger and every further invocation returns success
without executing; `reset_hook` on its key removes it, after which the
hook executes exactly once again.  (A failed execution is not recorded,
so the hook is re-attempted on the next invocation; only successful
executions are one-shot.) -/
theorem c6_amended (key : String) (st : List String) (os1 os2 : List Bool)
    (hcolon : strHasChar ':' key = true)
    (hnew : ¬ key ∈ st)
    (h1 : ∀ b ∈ os1, b = true) (h2 : ∀ b ∈ os2, b = true)
    (hn1 : ¬ os1 = []) (hn2 : ¬ os2 = []) :
    (runHookRepeat key false os1 st).2 = 1
      ∧ key ∈ (runHookRepeat key false os1 st).1
      ∧ (∀ ok, run_hook_step key false ok false (runHookRepeat key false os1 st).1
          = ((runHookRepeat key false os1 st).1, false, true))
      ∧ ¬ key ∈ reset_hook key (runHookRepeat key false os1 st).1
      ∧ (runHookRepeat key false os2 (reset_hook key (runHookRepeat key false os1 st).1)).2 = 1 := by
  have hrun : runHookRepeat key false os1 st = (key :: st, 1) :=
    runHookRepeat_fresh key os1 st hnew h1 hn1
  rw [hrun]
  have hreset : ¬ key ∈ reset_hook key (key :: st) := by
    intro hmem
    simp only [reset_hook, hcolon, if_pos] at hmem
    have := List.mem_filter.mp hmem
    simp at this
  refine ⟨rfl, List.mem_cons_self key st, ?_, hreset, ?_⟩
  · intro ok
    exact run_hook_step_skip key ok (key :: st) (List.mem_cons_self key st)
  · rw [runHookRepeat_fresh key os2 (reset_hook key (key :: st)) hreset h2 hn2]

/-- Claim C6, witness for the amended theorem at concrete inputs: two
all-successful runs of three invocations each, with a reset in between. -/
theorem c6_witness :
    (runHookRepeat ("mod:post") false [true, true, true] []).2 = 1
      ∧ (runHookRepeat ("mod:post") false [true]
          (reset_hook ("mod:post") (runHookRepeat ("mod:post") false [true, true, true] []).1)).2 = 1 := by
  have h := c6_amended ("mod:post") [] [true, true, true] [true]
    (by decide) (by simp) (by simp) (by simp) (by simp) (by simp)
  exact ⟨h.1, h.2.2.2.2⟩

/-! ## Claim C2: per-step ledger persistence -/

theorem run_hook_step_super (key : String) (al ok dry : Bool) (st : List String)
    (k : String) (h : k ∈ st) : k ∈ (run_hook_step key al ok dry st).1 := by
  unfold run_hook_step
  split
  · exact h
  · split
    · exact h
    · split
      · exact h
      · split
        · exact List.mem_cons_of_mem key h
        · exact h

theorem runHooksSeq_super (items : List (String × Bool × Bool)) (st : List String)
    (k : String) (h : k ∈ st) : k ∈ (runHooksSeq items st).1 := by
  induction items generalizing st with
  | nil => exact h
  | cons it rest ih =>
    rcases it with ⟨key, al, ok⟩
    show k ∈ (if (run_hook_step key al ok false st).2.2
        then runHooksSeq rest (run_hook_step key al ok false st).1
        else ((run_hook_step key al ok false st).1, false)).1
    split
    · exact ih _ (run_hook_step_super key al ok false st k h)
    · exact run_hook_step_super key al ok false st k h

theorem sync_services_cases (d : List Service) (st : DState) (env : SvcEnv)
    (r : DState × Bool × List SAct)
    (h : sync_services d st env false = some r) :
    (r.1 = st ∧ r.2.1 = true) ∨ (r.1 = st ∧ r.2.1 = false)
      ∨ (r.1 = { st with services := declaredEnabledKeys d } ∧ r.2.1 = true) := by
  unfold sync_services at h
  dsimp only at h
  split at h
  · exact absurd h (by simp)
  · split at h
    · rcases Option.some.inj h with rfl
      exact Or.inl ⟨rfl, rfl⟩
    · rw [if_neg (by simp)] at h
      split at h
      · rcases Option.some.inj h with rfl
        exact Or.inr (Or.inl ⟨rfl, rfl⟩)
      · split at h
        · rcases Option.some.inj h with rfl
          exact Or.inr (Or.inl ⟨rfl, rfl⟩)
        · rcases Option.some.inj h with rfl
          exact Or.inr (Or.inr ⟨rfl, rfl⟩)

/-- Claim C2, counterexample: as stated the claim is false for services.
Two fresh declared services, the first enable succeeds and the second
fails: `sync_services` returns failure with the successfully applied
enable in its action list, yet the persisted ledger is the unchanged
initial state, which does not contain the key of the successfully enabled
service (`save_tracked_services` runs only after the whole batch). -/
theorem c2_counterexample :
    sync_services
        [⟨("a.service"), false, true⟩, ⟨("b.service"), false, true⟩]
        ⟨[], []⟩
        ⟨fun _ _ => false, fun n _ => n == ("a.service"), fun _ _ => true⟩
        false
      = some (⟨[], []⟩, false, [SAct.enabled ⟨("a.service"), false, true⟩])
      ∧ ¬ svcKey ("a.service") false ∈ (DState.mk [] []).services := by
  constructor
  · rfl
  · simp

/-- Claim C2, amended: hook runs are persisted per-step — in a batch of
hooks where every hook before a failing one succeeds, each successful
non-always hook key is in the ledger produced by the failed run — but the
services ledger is batched: `sync_services` writes
`save_tracked_services(declared)` once, only after every enable/disable in
the batch succeeded, so a run that fails part-way leaves the service
ledger exactly as it was (successfully enabled services are not recorded),
and a fully successful mutating run rewrites it to the declared-and-enabled
key set. -/
theorem c2_amended :
    (∀ (good : List (String × Bool × Bool)) (bad : String × Bool × Bool)
        (rest : List (String × Bool × Bool)) (st0 : List String),
      (∀ it ∈ good, it.2.2 = true) → bad.2.1 = false → bad.2.2 = false →
      ¬ bad.1 ∈ st0 → (∀ it ∈ good, ¬ it.1 = bad.1) →
      (runHooksSeq (good ++ bad :: rest) st0).2 = false
        ∧ ∀ it ∈ good, it.2.1 = false →
            it.1 ∈ (runHooksSeq (good ++ bad :: rest) st0).1)
    ∧ (∀ d st env r, sync_services d st env false = some r →
        r.2.1 = false → r.1 = st)
    ∧ (∀ d st env r, sync_services d st env false = some r →
        r.2.1 = true → r.1 = st ∨ r.1.services = declaredEnabledKeys d) := by
  refine ⟨?_, ?_, ?_⟩
  · intro good bad rest st0 hgood hbadAl hbadOk hbadNew hfresh
    induction good generalizing st0 with
    | nil =>
      rcases bad with ⟨bk, bal, bok⟩
      dsimp only at hbadAl hbadOk
      subst hbadAl
      subst hbadOk
      have hc : st0.contains bk = false := by
        cases hcc : st0.contains bk with
        | false => rfl
        | true => exact absurd ((strList_contains_iff st0 bk).mp hcc) hbadNew
      have hstep : run_hook_step bk false false false st0 = (st0, true, false) := by
        simp only [run_hook_step, should_run_hook, hc, Bool.false_or, Bool.not_false]
        rfl
      constructor
      · show (if (run_hook_step bk false false false st0).2.2
            then runHooksSeq rest (run_hook_step bk false false false st0).1
            else ((run_hook_step bk false false false st0).1, false)).2 = false
        rw [hstep]
        rfl
      · intro it hit
        exact absurd hit (List.not_mem_nil it)
    | cons g good2 ih =>
      rcases g with ⟨gk, gal, gok⟩
      have hgok : gok = true := hgood ⟨gk, gal, gok⟩ (List.mem_cons_self _ _)
      subst hgok
      have hgood2 : ∀ it ∈ good2, it.2.2 = true :=
        fun it hit => hgood it (List.mem_cons_of_mem _ hit)
      have hfresh2 : ∀ it ∈ good2, ¬ it.1 = bad.1 :=
        fun it hit => hfresh it (List.mem_cons_of_mem _ hit)
      have hshape : runHooksSeq ((⟨gk, gal, true⟩ :: good2) ++ bad :: rest) st0
          = (if (run_hook_step gk gal true false st0).2.2
             then runHooksSeq (good2 ++ bad :: rest) (run_hook_step gk gal true false st0).1
             else ((run_hook_step gk gal true false st0).1, false)) := rfl
      cases hsr : should_run_hook gk gal st0 with
      | false =>
        have hstep : run_hook_step gk gal true false st0 = (st0, false, true) := by
          simp only [run_hook_step, hsr, Bool.not_false]
          rfl
        rw [hshape, hstep]
        dsimp only
        have hrec := ih st0 hgood2 hbadNew hfresh2
        refine ⟨hrec.1, ?_⟩
        intro it hit hal
        rcases List.mem_cons.mp hit with rfl | hit2
        · dsimp only at hal
          subst hal
          have hgin : gk ∈ st0 := by
            have hnn : (!(st0.contains gk)) = false := by
              rcases (Bool.or_eq_false_iff.mp hsr) with ⟨-, hh⟩
              exact hh
            have hcg : st0.contains gk = true := by
              cases hcc : st0.contains gk with
              | true => rfl
              | false => rw [hcc] at hnn; exact absurd hnn (by simp)
            exact (strList_contains_iff st0 gk).mp hcg
          exact runHooksSeq_super _ st0 gk hgin
        · exact hrec.2 it hit2 hal
      | true =>
        cases gal with
        | true =>
          have hstep : run_hook_step gk true true false st0 = (st0, true, true) := by
            simp only [run_hook_step, hsr]
            rfl
          rw [hshape, hstep]
          dsimp only
          have hrec := ih st0 hgood2 hbadNew hfresh2
          refine ⟨hrec.1, ?_⟩
          intro it hit hal
          rcases List.mem_cons.mp hit with rfl | hit2
          · exact absurd hal (by simp)
          · exact hrec.2 it hit2 hal
        | false =>
          have hstep : run_hook_step gk false true false st0 = (gk :: st0, true, true) := by
            simp only [run_hook_step, hsr, mark_hook_run]
            rfl
          rw [hshape, hstep]
          dsimp only
          have hbadNew2 : ¬ bad.1 ∈ gk :: st0 := by
            intro hin
            rcases List.mem_cons.mp hin with heq | hin2
            · exact hfresh ⟨gk, false, true⟩ (List.mem_cons_self _ _) heq.symm
            · exact hbadNew hin2
          have hrec := ih (gk :: st0) hgood2 hbadNew2 hfresh2
          refine ⟨hrec.1, ?_⟩
          intro it hit hal
          rcases List.mem_cons.mp hit with rfl | hit2
          · exact runHooksSeq_super _ (gk :: st0) gk (List.mem_cons_self gk st0)
          · exact hrec.2 it hit2 hal
  · intro d st env r h hf
    rcases sync_services_cases d st env r h with ⟨h1, h2⟩ | ⟨h1, -⟩ | ⟨-, h2⟩
    · rw [hf] at h2
      exact absurd h2 (by simp)
    · exact h1
    · rw [hf] at h2
      exact absurd h2 (by simp)
  · intro d st env r h ht
    rcases sync_services_cases d st env r h with ⟨h1, -⟩ | ⟨-, h2⟩ | ⟨h1, -⟩
    · exact Or.inl h1
    · rw [ht] at h2
      exact absurd h2 (by simp)
    · exact Or.inr (by rw [h1])

/-- Claim C2, witness for the amended theorem at concrete inputs: hook
`m1:pre` succeeds, `m2:pre` fails; the run fails but `m1:pre` is in the
persisted hook ledger. -/
theorem c2_witness :
    (runHooksSeq [(("m1:pre"), false, true), (("m2:pre"), false, false)] []).2 = false
      ∧ ("m1:pre") ∈ (runHooksSeq [(("m1:pre"), false, true), (("m2:pre"), false, false)] []).1 := by
  have h := c2_amended.1 [(("m1:pre"), false, true)] (("m2:pre"), false, false) [] []
    (by intro it hit; rcases List.mem_singleton.mp hit with rfl; rfl)
    rfl rfl (by simp)
    (by intro it hit; rcases List.mem_singleton.mp hit with rfl; decide)
  exact ⟨h.1, h.2 (("m1:pre"), false, true) (List.mem_singleton.mpr rfl) rfl⟩

/-! ## Claim C4: removal branch of service reconciliation -/

theorem userFlag_beq (v : Bool) :
    ((if v then ("True") else ("False") : String) == ("True")) = v := by
  cases v <;> decide

/-- Claim C4, counterexample: as stated the claim is false when a tracked
service name itself contains a `|`.  The ledger tracks
`("a|b.service", system)` under the key `a|b.service|False`, nothing is
declared, and the probe reports that exact pair enabled — but
`key.split('|', 1)` decodes the key as name `a` with user scope `False`,
probes that other pair, and queues nothing, so the tracked pair is not
queued for disable although the probe still reports it enabled. -/
theorem c4_counterexample :
    svcKey ("a|b.service") false ∈ (["a|b.service|False"] : List String)
      ∧ (fun nm (_ : Bool) => nm == ("a|b.service")) ("a|b.service") false = true
      ∧ removal_disable ["a|b.service|False"] []
          (fun nm _ => nm == ("a|b.service")) = some []
      ∧ ¬ Service.mk ("a|b.service") false false ∈ ([] : List Service) := by
  refine ⟨?_, ?_, ?_, ?_⟩
  · decide
  · decide
  · rfl
  · decide

/-- Claim C4, amended: restricted to ledgers whose keys are well-formed
`name|True`/`name|False` encodings of names not containing `|` (the only
keys `save_tracked_services` writes for such names), the claim holds: a
`(name, scope)` pair tracked in the ledger is queued for disable by the
removal branch if and only if its key is absent from the
declared-and-enabled map and the probe still reports it enabled; and a
pair whose key is not tracked is never queued by this branch, whatever the
probe says. -/
theorem c4_amended (tracked declared_map : List String)
    (probe : String → Bool → Bool) (n : String) (u : Bool)
    (hwf : ∀ k ∈ tracked, ∃ m v, ¬ '|' ∈ m.data ∧ k = svcKey m v)
    (hn : ¬ '|' ∈ n.data) :
    ∃ ds, removal_disable tracked declared_map probe = some ds
      ∧ (Service.mk n u false ∈ ds ↔
          (svcKey n u ∈ tracked ∧ ¬ svcKey n u ∈ declared_map
            ∧ probe n u = true)) := by
  induction tracked with
  | nil => exact ⟨[], rfl, by simp⟩
  | cons k rest ih =>
    obtain ⟨m, v, hm, rfl⟩ := hwf k (List.mem_cons_self k rest)
    have hwf2 : ∀ k2 ∈ rest, ∃ m2 v2, ¬ '|' ∈ m2.data ∧ k2 = svcKey m2 v2 :=
      fun k2 hk2 => hwf k2 (List.mem_cons_of_mem _ hk2)
    obtain ⟨ds', hds', hiff⟩ := ih hwf2
    cases hdm : declared_map.contains (svcKey m v) with
    | true =>
      have hmem : svcKey m v ∈ declared_map := (strList_contains_iff _ _).mp hdm
      refine ⟨ds', ?_, ?_⟩
      · simp only [removal_disable, hdm, if_true]
        exact hds'
      · rw [hiff]
        constructor
        · rintro ⟨h1, h2, h3⟩
          exact ⟨List.mem_cons_of_mem _ h1, h2, h3⟩
        · rintro ⟨h1, h2, h3⟩
          rcases List.mem_cons.mp h1 with heq | h1r
          · exact absurd (heq ▸ hmem) h2
          · exact ⟨h1r, h2, h3⟩
    | false =>
      have hnotmem : ¬ svcKey m v ∈ declared_map := by
        intro hmm
        rw [(strList_contains_iff _ _).mpr hmm] at hdm
        exact Bool.noConfusion hdm
      have hsplit := splitFirst_svcKey m v hm
      cases hp : probe m v with
      | true =>
        refine ⟨Service.mk m v false :: ds', ?_, ?_⟩
        · simp only [removal_disable, hdm, if_false, hsplit, hds', userFlag_beq, hp]
          rfl
        · by_cases hk : svcKey n u = svcKey m v
          · obtain ⟨rfl, rfl⟩ := svcKey_inj n m u v hn hm hk
            constructor
            · intro _
              exact ⟨List.mem_cons_self _ _, hnotmem, hp⟩
            · intro _
              exact List.mem_cons_self _ _
          · have hsvc : ¬ Service.mk n u false = Service.mk m v false := by
              intro he
              injection he with he1 he2 he3
              exact hk (he1 ▸ he2 ▸ rfl)
            constructor
            · intro hmem
              rcases List.mem_cons.mp hmem with heq | hmem2
              · exact absurd heq hsvc
              · obtain ⟨h1, h2, h3⟩ := hiff.mp hmem2
                exact ⟨List.mem_cons_of_mem _ h1, h2, h3⟩
            · rintro ⟨h1, h2, h3⟩
              rcases List.mem_cons.mp h1 with heq | h1r
              · exact absurd heq hk
              · exact List.mem_cons_of_mem _ (hiff.mpr ⟨h1r, h2, h3⟩)
      | false =>
        refine ⟨ds', ?_, ?_⟩
        · simp only [removal_disable, hdm, if_false, hsplit, hds', userFlag_beq, hp]
          rfl
        · rw [hiff]
          by_cases hk : svcKey n u = svcKey m v
          · obtain ⟨rfl, rfl⟩ := svcKey_inj n m u v hn hm hk
            constructor
            · rintro ⟨-, -, h3⟩
              rw [h3] at hp
              exact Bool.noConfusion hp
            · rintro ⟨-, -, h3⟩
              rw [h3] at hp
              exact Bool.noConfusion hp
          · constructor
            · rintro ⟨h1, h2, h3⟩
              exact ⟨List.mem_cons_of_mem _ h1, h2, h3⟩
            · rintro ⟨h1, h2, h3⟩
              rcases List.mem_cons.mp h1 with heq | h1r
              · exact absurd heq hk
              · exact ⟨h1r, h2, h3⟩

/-- Claim C4, witness for the amended theorem at concrete inputs: the
ledger tracks `foo.service` in user scope, nothing is declared, the probe
reports it enabled, and the removal branch queues exactly that pair. -/
theorem c4_witness :
    ∃ ds, removal_disable ["foo.service|True"] [] (fun _ _ => true) = some ds
      ∧ (Service.mk ("foo.service") true false ∈ ds ↔
          (svcKey ("foo.service") true ∈ (["foo.service|True"] : List String)
            ∧ ¬ svcKey ("foo.service") true ∈ ([] : List String)
            ∧ (fun (_ : String) (_ : Bool) => true) ("foo.service") true = true)) :=
  c4_amended ["foo.service|True"] [] (fun _ _ => true) ("foo.service") true
    (fun k hk => ⟨("foo.service"), true, by decide,
      by rcases List.mem_singleton.mp hk with rfl; decide⟩)
    (by decide)

/-! ## Claim C5: dotfile conflicts block sync -/

theorem strBeqFalse {x y : String} (h : ¬ x = y) : (x == y) = false := by
  cases hb : x == y with
  | false => rfl
  | true => exact absurd (beq_iff_eq.mp hb) h

theorem conflictsAux_cons (seen : List (String × String)) (d : Dotfile)
    (rest : List Dotfile) :
    conflictsAux seen (d :: rest)
      = match seen.find? (fun e => e.1 == d.target) with
        | some e => Conflict.mk d.target [e.2, d.modname] :: conflictsAux seen rest
        | none => conflictsAux ((d.target, d.modname) :: seen) rest := rfl

theorem target_count_eq (l : List Dotfile) (t : String) :
    (l.map Dotfile.target).count t = (l.filter (fun d => d.target == t)).length := by
  induction l with
  | nil => rfl
  | cons d rest ih =>
    by_cases hdt : d.target = t
    · subst hdt
      simp [List.count_cons, ih]
    · have hbeq : (d.target == t) = false := strBeqFalse hdt
      have hbeq2 : (t == d.target) = false := strBeqFalse (fun h => hdt h.symm)
      simp [List.count_cons, hbeq, hbeq2, ih]

theorem find?_cons_false {α : Type} (p : α → Bool) (a : α) (l : List α)
    (h : p a = false) : (a :: l).find? p = l.find? p := by
  simp [List.find?, h]

theorem find?_cons_true {α : Type} (p : α → Bool) (a : α) (l : List α)
    (h : p a = true) : (a :: l).find? p = some a := by
  simp [List.find?, h]

theorem conflictsAux_nil (l : List Dotfile) : ∀ (seen : List (String × String)),
    (∀ d ∈ l, seen.find? (fun e => e.1 == d.target) = none) →
    (l.map Dotfile.target).Nodup →
    conflictsAux seen l = [] := by
  induction l with
  | nil => intro seen _ _; rfl
  | cons d rest ih =>
    intro seen hfresh hnd
    have hd : seen.find? (fun e => e.1 == d.target) = none :=
      hfresh d (List.mem_cons_self d rest)
    rw [conflictsAux_cons, hd]
    have hnd2 := List.nodup_cons.mp (by rw [List.map_cons] at hnd; exact hnd)
    refine ih ((d.target, d.modname) :: seen) ?_ hnd2.2
    intro d2 hd2
    have hne : ¬ d.target = d2.target := by
      intro he
      exact hnd2.1 (he ▸ List.mem_map.mpr ⟨d2, hd2, rfl⟩)
    rw [find?_cons_false (fun e => e.1 == d2.target) (d.target, d.modname) seen
      (strBeqFalse hne)]
    exact hfresh d2 (List.mem_cons_of_mem _ hd2)

theorem filter_cons_true {α : Type} (p : α → Bool) (a : α) (l : List α)
    (h : p a = true) : (a :: l).filter p = a :: l.filter p := by
  simp [List.filter_cons, h]

theorem filter_cons_false {α : Type} (p : α → Bool) (a : α) (l : List α)
    (h : p a = false) : (a :: l).filter p = l.filter p := by
  simp [List.filter_cons, h]

theorem conflictsAux_one (l : List Dotfile) : ∀ (seen : List (String × String))
    (t : String) (pr : String × String),
    seen.find? (fun e => e.1 == t) = some pr →
    (l.map Dotfile.target).count t = 1 →
    (∀ d ∈ l, ¬ d.target = t → seen.find? (fun e => e.1 == d.target) = none) →
    ((l.map Dotfile.target).filter (fun x => !(x == t))).Nodup →
    conflictsAux seen l
      = (l.filter (fun d => d.target == t)).map
          (fun d => Conflict.mk t [pr.2, d.modname]) := by
  induction l with
  | nil =>
    intro seen t pr _ hcnt _ _
    simp at hcnt
  | cons d rest ih =>
    intro seen t pr hfind hcnt hothers hnodup
    rw [conflictsAux_cons]
    by_cases hdt : d.target = t
    · subst hdt
      have hcr : (rest.map Dotfile.target).count d.target = 0 := by
        rw [List.map_cons, List.count_cons_self] at hcnt
        omega
      have htnotin : ¬ d.target ∈ rest.map Dotfile.target :=
        List.count_eq_zero.mp hcr
      rw [hfind]
      have hnilrest : conflictsAux seen rest = [] := by
        refine conflictsAux_nil rest seen ?_ ?_
        · intro d2 hd2
          by_cases h2t : d2.target = d.target
          · exact absurd (h2t ▸ List.mem_map.mpr ⟨d2, hd2, rfl⟩) htnotin
          · exact hothers d2 (List.mem_cons_of_mem _ hd2) h2t
        · have heq : (rest.map Dotfile.target).filter (fun x => !(x == d.target))
              = rest.map Dotfile.target := by
            apply List.filter_eq_self.mpr
            intro x hx
            have hne : ¬ x = d.target := by
              intro he
              rw [he] at hx
              exact htnotin hx
            rw [strBeqFalse hne]
            rfl
          rw [List.map_cons,
            filter_cons_false (fun x => !(x == d.target)) d.target
              (rest.map Dotfile.target) (by simp),
            heq] at hnodup
          exact hnodup
      have hfilrest : rest.filter (fun d2 => d2.target == d.target) = [] := by
        apply List.filter_eq_nil_iff.mpr
        intro d2 hd2
        have hne : ¬ d2.target = d.target := by
          intro he
          exact htnotin (he ▸ List.mem_map.mpr ⟨d2, hd2, rfl⟩)
        rw [strBeqFalse hne]
        exact Bool.noConfusion
      rw [hnilrest,
        filter_cons_true (fun d2 => d2.target == d.target) d rest (by simp),
        hfilrest]
      rfl
    · have hd : seen.find? (fun e => e.1 == d.target) = none :=
        hothers d (List.mem_cons_self d rest) hdt
      rw [hd]
      have hpd : (fun x => !(x == t)) d.target = true := by
        show (!(d.target == t)) = true
        rw [strBeqFalse hdt]
        rfl
      have hnodup2 := hnodup
      rw [List.map_cons,
        filter_cons_true (fun x => !(x == t)) d.target (rest.map Dotfile.target) hpd]
        at hnodup2
      have hnd2 := List.nodup_cons.mp hnodup2
      have hne2 : ∀ d2 ∈ rest, ¬ d2.target = t → ¬ d.target = d2.target := by
        intro d2 hd2 h2t he
        refine hnd2.1 ?_
        rw [he, List.mem_filter]
        refine ⟨List.mem_map.mpr ⟨d2, hd2, rfl⟩, ?_⟩
        show (!(d2.target == t)) = true
        rw [strBeqFalse h2t]
        rfl
      have hres := ih ((d.target, d.modname) :: seen) t pr ?_ ?_ ?_ ?_
      · rw [hres,
          filter_cons_false (fun d2 => d2.target == t) d rest (strBeqFalse hdt)]
      · rw [find?_cons_false (fun e => e.1 == t) (d.target, d.modname) seen
          (strBeqFalse hdt)]
        exact hfind
      · rw [List.map_cons, List.count_cons] at hcnt
        rw [strBeqFalse hdt] at hcnt
        simpa using hcnt
      · intro d2 hd2 h2t
        rw [find?_cons_false (fun e => e.1 == d2.target) (d.target, d.modname) seen
          (strBeqFalse (hne2 d2 hd2 h2t))]
        exact hothers d2 (List.mem_cons_of_mem _ hd2) h2t
      · rw [List.map_cons,
          filter_cons_true (fun x => !(x == t)) d.target (rest.map Dotfile.target) hpd]
          at hnodup
        exact (List.nodup_cons.mp hnodup).2

theorem conflictsAux_two (l : List Dotfile) : ∀ (seen : List (String × String))
    (t : String),
    seen.find? (fun e => e.1 == t) = none →
    (l.map Dotfile.target).count t = 2 →
    (∀ d ∈ l, ¬ d.target = t → seen.find? (fun e => e.1 == d.target) = none) →
    ((l.map Dotfile.target).filter (fun x => !(x == t))).Nodup →
    ∃ d1 d2, l.filter (fun d => d.target == t) = [d1, d2]
      ∧ conflictsAux seen l = [Conflict.mk t [d1.modname, d2.modname]] := by
  induction l with
  | nil =>
    intro seen t _ hcnt _ _
    simp at hcnt
  | cons d rest ih =>
    intro seen t hfreshT hcnt hothers hnodup
    rw [conflictsAux_cons]
    by_cases hdt : d.target = t
    · subst hdt
      rw [hfreshT]
      have hcr : (rest.map Dotfile.target).count d.target = 1 := by
        rw [List.map_cons, List.count_cons_self] at hcnt
        omega
      have haux := conflictsAux_one rest ((d.target, d.modname) :: seen)
        d.target (d.target, d.modname) ?_ hcr ?_ ?_
      · have hlen : (rest.filter (fun d2 => d2.target == d.target)).length = 1 := by
          rw [← target_count_eq]
          exact hcr
        obtain ⟨d2, hd2⟩ := List.length_eq_one.mp hlen
        refine ⟨d, d2, ?_, ?_⟩
        · rw [filter_cons_true (fun d2 => d2.target == d.target) d rest (by simp), hd2]
        · rw [haux, hd2]
          rfl
      · rw [find?_cons_true (fun e => e.1 == d.target) (d.target, d.modname) seen
          (by simp)]
      · intro d2 hd2 h2t
        rw [find?_cons_false (fun e => e.1 == d2.target) (d.target, d.modname) seen
          (strBeqFalse (fun he => h2t he.symm))]
        exact hothers d2 (List.mem_cons_of_mem _ hd2) h2t
      · rw [List.map_cons,
          filter_cons_false (fun x => !(x == d.target)) d.target
            (rest.map Dotfile.target) (by simp)] at hnodup
        exact hnodup
    · have hd : seen.find? (fun e => e.1 == d.target) = none :=
        hothers d (List.mem_cons_self d rest) hdt
      rw [hd]
      have hpd : (fun x => !(x == t)) d.target = true := by
        show (!(d.target == t)) = true
        rw [strBeqFalse hdt]
        rfl
      have hnodup2 := hnodup
      rw [List.map_cons,
        filter_cons_true (fun x => !(x == t)) d.target (rest.map Dotfile.target) hpd]
        at hnodup2
      have hnd2 := List.nodup_cons.mp hnodup2
      have hne2 : ∀ d2 ∈ rest, ¬ d2.target = t → ¬ d.target = d2.target := by
        intro d2 hd2 h2t he
        refine hnd2.1 ?_
        rw [he, List.mem_filter]
        refine ⟨List.mem_map.mpr ⟨d2, hd2, rfl⟩, ?_⟩
        show (!(d2.target == t)) = true
        rw [strBeqFalse h2t]
        rfl
      have hres := ih ((d.target, d.modname) :: seen) t ?_ ?_ ?_ ?_
      · obtain ⟨d1, d2, hfil, haux⟩ := hres
        refine ⟨d1, d2, ?_, haux⟩
        rw [filter_cons_false (fun d2 => d2.target == t) d rest (strBeqFalse hdt), hfil]
      · rw [find?_cons_false (fun e => e.1 == t) (d.target, d.modname) seen
          (strBeqFalse hdt)]
        exact hfreshT
      · rw [List.map_cons, List.count_cons] at hcnt
        rw [strBeqFalse hdt] at hcnt
        simpa using hcnt
      · intro d2 hd2 h2t
        rw [find?_cons_false (fun e => e.1 == d2.target) (d.target, d.modname) seen
          (strBeqFalse (hne2 d2 hd2 h2t))]
        exact hothers d2 (List.mem_cons_of_mem _ hd2) h2t
      · exact hnd2.2

/-- Claim C5: with a resolved link set in which exactly two links (from two
modules) claim the same target path `t` and every other target is claimed
at most once, `check_conflicts` returns exactly one conflict record naming
both claiming modules in link order, and `sync_dotfiles` on that link set
returns failure with the filesystem untouched and no link mutation
performed, dry-run or not. -/
theorem c5_conflict_blocks_sync (l : List Dotfile) (t : String)
    (hcnt : (l.map Dotfile.target).count t = 2)
    (hothers : ∀ t2 ∈ l.map Dotfile.target, ¬ t2 = t →
        (l.map Dotfile.target).count t2 ≤ 1) :
    ∃ d1 d2, l.filter (fun d => d.target == t) = [d1, d2]
      ∧ check_conflicts l = [Conflict.mk t [d1.modname, d2.modname]]
      ∧ ∀ fs dryRun, sync_dotfiles l fs dryRun = (fs, [], false) := by
  have hnodup : ((l.map Dotfile.target).filter (fun x => !(x == t))).Nodup := by
    rw [List.nodup_iff_count_le_one]
    intro a
    by_cases hat : a = t
    · subst hat
      have : ¬ a ∈ (l.map Dotfile.target).filter (fun x => !(x == a)) := by
        intro hmem
        have := (List.mem_filter.mp hmem).2
        simp at this
      rw [List.count_eq_zero.mpr this]
      omega
    · have hsub : ((l.map Dotfile.target).filter (fun x => !(x == t))).count a
          ≤ (l.map Dotfile.target).count a :=
        (List.filter_sublist (l.map Dotfile.target)).count_le a
      by_cases hmem : a ∈ l.map Dotfile.target
      · exact le_trans hsub (hothers a hmem hat)
      · rw [List.count_eq_zero.mpr hmem] at hsub
        omega
  obtain ⟨d1, d2, hfil, haux⟩ :=
    conflictsAux_two l [] t rfl hcnt (fun d _ _ => rfl) hnodup
  have hconf : check_conflicts l = [Conflict.mk t [d1.modname, d2.modname]] := haux
  refine ⟨d1, d2, hfil, hconf, ?_⟩
  intro fs dryRun
  have hlne : l.isEmpty = false := by
    cases l with
    | nil => simp at hcnt
    | cons x xs => rfl
  show (if l.isEmpty then (fs, [], true)
    else if !(check_conflicts l).isEmpty then (fs, ([] : List Mut), false)
    else ((syncLinks dryRun fs l).1, (syncLinks dryRun fs l).2, true)) = (fs, [], false)
  rw [hlne, hconf]
  rfl

/-- Claim C5, witness at a concrete input: two modules map distinct sources
to the same target; exactly one conflict record names both, and sync fails
without touching the filesystem. -/
theorem c5_witness :
    ∃ d1 d2,
      ([⟨("/modA/f1"), ("/home/u/.config/f"), ("m1")⟩,
        ⟨("/modB/f2"), ("/home/u/.config/f"), ("m2")⟩] : List Dotfile).filter
          (fun d => d.target == ("/home/u/.config/f")) = [d1, d2]
      ∧ check_conflicts
          [⟨("/modA/f1"), ("/home/u/.config/f"), ("m1")⟩,
           ⟨("/modB/f2"), ("/home/u/.config/f"), ("m2")⟩]
          = [Conflict.mk ("/home/u/.config/f") [d1.modname, d2.modname]]
      ∧ ∀ fs dryRun, sync_dotfiles
          [⟨("/modA/f1"), ("/home/u/.config/f"), ("m1")⟩,
           ⟨("/modB/f2"), ("/home/u/.config/f"), ("m2")⟩] fs dryRun
          = (fs, [], false) :=
  c5_conflict_blocks_sync _ ("/home/u/.config/f") (by decide) (by decide)

/-! ## Claim C7: dotfile convergence idempotence

Basic facts about the filesystem model, the mkdir/resolve helpers, and the
per-link convergence step, leading to the idempotence theorem. -/

theorem fsGet_nil (p : String) : fsGet [] p = none := rfl

theorem fsGet_fsDel_self (fs : FS) (p : String) : fsGet (fsDel fs p) p = none := by
  induction fs with
  | nil => rfl
  | cons e rest ih =>
    show fsGet ((e :: rest).filter (fun e2 => !(e2.1 == p))) p = none
    by_cases hep : e.1 = p
    · rw [filter_cons_false (fun e2 => !(e2.1 == p)) e rest
        (by show (!(e.1 == p)) = false; rw [hep]; simp)]
      exact ih
    · rw [filter_cons_true (fun e2 => !(e2.1 == p)) e rest
        (by show (!(e.1 == p)) = true; rw [strBeqFalse hep]; rfl)]
      show fsGet (e :: fsDel rest p) p = none
      unfold fsGet
      rw [find?_cons_false (fun e2 => e2.1 == p) e (fsDel rest p) (strBeqFalse hep)]
      exact ih

theorem fsGet_fsDel_ne (fs : FS) (p q : String) (h : ¬ q = p) :
    fsGet (fsDel fs p) q = fsGet fs q := by
  induction fs with
  | nil => rfl
  | cons e rest ih =>
    show fsGet ((e :: rest).filter (fun e2 => !(e2.1 == p))) q = fsGet (e :: rest) q
    by_cases hep : e.1 = p
    · rw [filter_cons_false (fun e2 => !(e2.1 == p)) e rest
        (by show (!(e.1 == p)) = false; rw [hep]; simp)]
      have heq : ¬ e.1 = q := by
        intro he
        exact h (he ▸ hep ▸ rfl)
      show fsGet (fsDel rest p) q = fsGet (e :: rest) q
      unfold fsGet
      rw [find?_cons_false (fun e2 => e2.1 == q) e rest (strBeqFalse heq)]
      exact ih
    · rw [filter_cons_true (fun e2 => !(e2.1 == p)) e rest
        (by show (!(e.1 == p)) = true; rw [strBeqFalse hep]; rfl)]
      show fsGet (e :: fsDel rest p) q = fsGet (e :: rest) q
      unfold fsGet
      by_cases heq : e.1 = q
      · rw [find?_cons_true (fun e2 => e2.1 == q) e (fsDel rest p)
            (by show (e.1 == q) = true; rw [heq]; simp),
          find?_cons_true (fun e2 => e2.1 == q) e rest
            (by show (e.1 == q) = true; rw [heq]; simp)]
      · rw [find?_cons_false (fun e2 => e2.1 == q) e (fsDel rest p) (strBeqFalse heq),
          find?_cons_false (fun e2 => e2.1 == q) e rest (strBeqFalse heq)]
        exact ih

theorem fsGet_fsSet_self (fs : FS) (p : String) (en : Entry) :
    fsGet (fsSet fs p en) p = some en := by
  show fsGet ((p, en) :: fsDel fs p) p = some en
  unfold fsGet
  rw [find?_cons_true (fun e2 => e2.1 == p) (p, en) (fsDel fs p) (by simp)]

theorem fsGet_fsSet_ne (fs : FS) (p q : String) (en : Entry) (h : ¬ q = p) :
    fsGet (fsSet fs p en) q = fsGet fs q := by
  show fsGet ((p, en) :: fsDel fs p) q = fsGet fs q
  unfold fsGet
  rw [find?_cons_false (fun e2 => e2.1 == q) (p, en) (fsDel fs p)
    (strBeqFalse (fun he => h he.symm))]
  exact fsGet_fsDel_ne fs p q h

theorem fsRename_ne (fs : FS) (src dst q : String) (h1 : ¬ q = src)
    (h2 : ¬ q = dst) : fsGet (fsRename fs src dst) q = fsGet fs q := by
  unfold fsRename
  cases hg : fsGet fs src with
  | none => rfl
  | some en =>
    rw [fsGet_fsSet_ne _ _ _ _ h2, fsGet_fsDel_ne _ _ _ h1]

theorem mkdirFuel_succ (fs : FS) (n : Nat) (p : String) :
    mkdirFuel fs (n + 1) p
      = if p == ("") || p == ("/") then (fs, [])
        else if (fsGet (mkdirFuel fs n (parentPath p)).1 p).isSome
          then mkdirFuel fs n (parentPath p)
          else (fsSet (mkdirFuel fs n (parentPath p)).1 p .dir,
                (mkdirFuel fs n (parentPath p)).2 ++ [.mkdir p]) := rfl

theorem mkdirFuel_get (fs : FS) (n : Nat) : ∀ (p x : String),
    fsGet (mkdirFuel fs n p).1 x = fsGet fs x
      ∨ (fsGet fs x = none ∧ fsGet (mkdirFuel fs n p).1 x = some Entry.dir) := by
  induction n with
  | zero => intro p x; exact Or.inl rfl
  | succ n ih =>
    intro p x
    rw [mkdirFuel_succ]
    by_cases hroot : (p == ("") || p == ("/")) = true
    · rw [if_pos hroot]
      exact Or.inl rfl
    · rw [if_neg (by rw [Bool.not_eq_true] at hroot; rw [hroot]; exact Bool.noConfusion)]
      by_cases hpres : (fsGet (mkdirFuel fs n (parentPath p)).1 p).isSome = true
      · rw [if_pos hpres]
        exact ih (parentPath p) x
      · rw [if_neg hpres]
        by_cases hxp : x = p
        · subst hxp
          dsimp only
          rw [fsGet_fsSet_self]
          rcases ih (parentPath x) x with hsame | ⟨hnone, hdir⟩
          · refine Or.inr ⟨?_, rfl⟩
            rw [← hsame]
            cases hg : fsGet (mkdirFuel fs n (parentPath x)).1 x with
            | none => rfl
            | some e => rw [hg] at hpres; exact absurd rfl hpres
          · rw [hdir] at hpres
            exact absurd rfl hpres
        · dsimp only
          rw [fsGet_fsSet_ne _ _ _ _ hxp]
          exact ih (parentPath p) x

theorem mkdirParents_get (fs : FS) (p x : String) :
    fsGet (mkdirParents fs p).1 x = fsGet fs x
      ∨ (fsGet fs x = none ∧ fsGet (mkdirParents fs p).1 x = some Entry.dir) :=
  mkdirFuel_get fs (p.data.length + 1) p x

theorem isSymlinkAt_eq_false_of_get {fs : FS} {x : String}
    (h : ∀ q : String, ¬ fsGet fs x = some (Entry.symlink q)) :
    isSymlinkAt fs x = false := by
  unfold isSymlinkAt
  cases hg : fsGet fs x with
  | none => rfl
  | some e =>
    cases e with
    | file => rfl
    | dir => rfl
    | symlink q => exact absurd hg (h q)

theorem get_symlink_of_isSymlinkAt {fs : FS} {x : String}
    (h : isSymlinkAt fs x = true) :
    ∃ q, fsGet fs x = some (Entry.symlink q) := by
  unfold isSymlinkAt at h
  cases hg : fsGet fs x with
  | none => rw [hg] at h; exact Bool.noConfusion h
  | some e =>
    cases e with
    | file => rw [hg] at h; exact Bool.noConfusion h
    | dir => rw [hg] at h; exact Bool.noConfusion h
    | symlink q => exact ⟨q, rfl⟩

theorem mkdirParents_nonsym (fs : FS) (p x : String)
    (h : isSymlinkAt fs x = false) :
    isSymlinkAt (mkdirParents fs p).1 x = false := by
  rcases mkdirParents_get fs p x with hsame | ⟨-, hdir⟩
  · unfold isSymlinkAt
    rw [hsame]
    exact h
  · unfold isSymlinkAt
    rw [hdir]

theorem resolve_nonsym (fs : FS) (p : String) (h : isSymlinkAt fs p = false) :
    resolvePath fs p = p := by
  unfold resolvePath
  show resolveFuel fs (fs.length + 1) p = p
  cases hg : fsGet fs p with
  | none => simp [resolveFuel, hg]
  | some e =>
    cases e with
    | file => simp [resolveFuel, hg]
    | dir => simp [resolveFuel, hg]
    | symlink q =>
      unfold isSymlinkAt at h
      rw [hg] at h
      exact Bool.noConfusion h

theorem fs_ne_nil_of_get {fs : FS} {p : String} {e : Entry}
    (h : fsGet fs p = some e) : ¬ fs = [] := by
  intro hfs
  rw [hfs] at h
  exact Option.noConfusion h

theorem resolve_symlink (fs : FS) (t s : String)
    (hget : fsGet fs t = some (Entry.symlink s))
    (hs : isSymlinkAt fs s = false) :
    resolvePath fs t = s := by
  unfold resolvePath
  cases hfs : fs with
  | nil => exact absurd hfs (fs_ne_nil_of_get hget)
  | cons e rest =>
    rw [← hfs]
    show resolveFuel fs (fs.length + 1) t = s
    rw [hfs, List.length_cons, ← hfs]
    show resolveFuel fs (rest.length + 1 + 1) t = s
    rw [show resolveFuel fs (rest.length + 1 + 1) t
        = resolveFuel fs (rest.length + 1) s by
      show (match fsGet fs t with
        | some (.symlink q) => resolveFuel fs (rest.length + 1) q
        | _ => t) = resolveFuel fs (rest.length + 1) s
      rw [hget]]
    cases hg : fsGet fs s with
    | none => simp [resolveFuel, hg]
    | some e2 =>
      cases e2 with
      | file => simp [resolveFuel, hg]
      | dir => simp [resolveFuel, hg]
      | symlink q =>
        unfold isSymlinkAt at hs
        rw [hg] at hs
        exact Bool.noConfusion hs

theorem applyLink_fs (fs : FS) (d : Dotfile) :
    (applyLink fs d).1
      = fsSet (mkdirParents (unlinkStep (backupStep fs d).1 d).1
          (parentPath d.target)).1 d.target (Entry.symlink d.source) := rfl

theorem applyLink_target (fs : FS) (d : Dotfile) :
    fsGet (applyLink fs d).1 d.target = some (Entry.symlink d.source) := by
  rw [applyLink_fs]
  exact fsGet_fsSet_self _ _ _

theorem fsRename_dst (fs : FS) (src dst : String) (e : Entry)
    (h : fsGet fs src = some e) : fsGet (fsRename fs src dst) dst = some e := by
  unfold fsRename
  rw [h]
  exact fsGet_fsSet_self _ _ _

theorem backupStep_get (fs : FS) (d : Dotfile) (x : String)
    (hxt : ¬ x = d.target) (hxb : ¬ x = backupPath d.target) :
    fsGet (backupStep fs d).1 x = fsGet fs x := by
  unfold backupStep
  split
  · exact fsRename_ne fs d.target (backupPath d.target) x hxt hxb
  · rfl

theorem existsNotSymlink_cases {fs : FS} {p : String}
    (h : existsNotSymlink fs p = true) :
    fsGet fs p = some Entry.file ∨ fsGet fs p = some Entry.dir := by
  unfold existsNotSymlink at h
  cases hg : fsGet fs p with
  | none => rw [hg] at h; exact Bool.noConfusion h
  | some e =>
    cases e with
    | file => exact Or.inl rfl
    | dir => exact Or.inr rfl
    | symlink q => rw [hg] at h; exact Bool.noConfusion h

theorem backupStep_nonsym (fs : FS) (d : Dotfile) (x : String)
    (hxt : ¬ x = d.target) (hx : isSymlinkAt fs x = false) :
    isSymlinkAt (backupStep fs d).1 x = false := by
  unfold backupStep
  split
  · rename_i hex
    by_cases hxb : x = backupPath d.target
    · subst hxb
      rcases existsNotSymlink_cases hex with hf | hf
      · unfold isSymlinkAt
        rw [fsRename_dst fs d.target _ _ hf]
      · unfold isSymlinkAt
        rw [fsRename_dst fs d.target _ _ hf]
    · unfold isSymlinkAt
      rw [fsRename_ne fs d.target (backupPath d.target) x hxt hxb]
      unfold isSymlinkAt at hx
      exact hx
  · exact hx

theorem unlinkStep_get (fs : FS) (d : Dotfile) (x : String)
    (hxt : ¬ x = d.target) :
    fsGet (unlinkStep fs d).1 x = fsGet fs x := by
  unfold unlinkStep
  split
  · exact fsGet_fsDel_ne fs d.target x hxt
  · rfl

theorem unlinkStep_nonsym (fs : FS) (d : Dotfile) (x : String)
    (hx : isSymlinkAt fs x = false) :
    isSymlinkAt (unlinkStep fs d).1 x = false := by
  by_cases hxt : x = d.target
  · subst hxt
    unfold unlinkStep
    split
    · unfold isSymlinkAt
      rw [fsGet_fsDel_self]
    · exact hx
  · unfold isSymlinkAt
    rw [unlinkStep_get fs d x hxt]
    unfold isSymlinkAt at hx
    exact hx

theorem applyLink_other (fs : FS) (d : Dotfile) (x : String)
    (hxt : ¬ x = d.target) (hxb : ¬ x = backupPath d.target) :
    fsGet (applyLink fs d).1 x = fsGet fs x
      ∨ (fsGet fs x = none ∧ fsGet (applyLink fs d).1 x = some Entry.dir) := by
  rw [applyLink_fs, fsGet_fsSet_ne _ _ _ _ hxt]
  have h2 : fsGet (unlinkStep (backupStep fs d).1 d).1 x = fsGet fs x := by
    rw [unlinkStep_get _ _ _ hxt]
    exact backupStep_get fs d x hxt hxb
  rcases mkdirParents_get (unlinkStep (backupStep fs d).1 d).1
      (parentPath d.target) x with hsame | ⟨hnone, hdir⟩
  · rw [hsame, h2]
    exact Or.inl rfl
  · rw [h2] at hnone
    exact Or.inr ⟨hnone, hdir⟩

theorem applyLink_present (fs : FS) (d : Dotfile) (x : String)
    (hxt : ¬ x = d.target) (hxb : ¬ x = backupPath d.target)
    (hpres : ¬ fsGet fs x = none) :
    fsGet (applyLink fs d).1 x = fsGet fs x := by
  rcases applyLink_other fs d x hxt hxb with h | ⟨hnone, -⟩
  · exact h
  · exact absurd hnone hpres

theorem applyLink_nonsym (fs : FS) (d : Dotfile) (x : String)
    (hxt : ¬ x = d.target) (hx : isSymlinkAt fs x = false) :
    isSymlinkAt (applyLink fs d).1 x = false := by
  rw [applyLink_fs]
  have h1 : isSymlinkAt (unlinkStep (backupStep fs d).1 d).1 x = false :=
    unlinkStep_nonsym _ _ _ (backupStep_nonsym fs d x hxt hx)
  have h2 : isSymlinkAt (mkdirParents (unlinkStep (backupStep fs d).1 d).1
      (parentPath d.target)).1 x = false :=
    mkdirParents_nonsym _ _ _ h1
  unfold isSymlinkAt
  rw [fsGet_fsSet_ne _ _ _ _ hxt]
  unfold isSymlinkAt at h2
  exact h2

theorem noopCheck_true (fs : FS) (d : Dotfile)
    (hget : fsGet fs d.target = some (Entry.symlink d.source))
    (hsrc : isSymlinkAt fs d.source = false) :
    noopCheck fs d = true := by
  unfold noopCheck
  have h1 : isSymlinkAt fs d.target = true := by
    unfold isSymlinkAt
    rw [hget]
  rw [h1, resolve_symlink fs d.target d.source hget hsrc,
    resolve_nonsym fs d.source hsrc]
  simp

theorem syncLinks_cons (dry : Bool) (fs : FS) (d : Dotfile) (rest : List Dotfile) :
    syncLinks dry fs (d :: rest)
      = if noopCheck fs d then syncLinks dry fs rest
        else if dry then syncLinks dry fs rest
        else ((syncLinks dry (applyLink fs d).1 rest).1,
              (applyLink fs d).2 ++ (syncLinks dry (applyLink fs d).1 rest).2) := rfl

theorem syncLinks_noop (L : List Dotfile) : ∀ (fs : FS),
    (∀ d ∈ L, fsGet fs d.target = some (Entry.symlink d.source)
      ∧ isSymlinkAt fs d.source = false) →
    syncLinks false fs L = (fs, []) := by
  induction L with
  | nil => intro fs _; rfl
  | cons d rest ih =>
    intro fs h
    obtain ⟨hget, hsrc⟩ := h d (List.mem_cons_self d rest)
    rw [syncLinks_cons, if_pos (noopCheck_true fs d hget hsrc)]
    exact ih fs (fun d2 hd2 => h d2 (List.mem_cons_of_mem _ hd2))

theorem find?_cons_none {α : Type} (p : α → Bool) (a : α) (l : List α) :
    (a :: l).find? p = none ↔ (p a = false ∧ l.find? p = none) := by
  cases hpa : p a <;> simp [List.find?_cons, hpa]

theorem conflictsAux_nil_strong (l : List Dotfile) : ∀ (seen : List (String × String)),
    conflictsAux seen l = [] →
    (∀ d ∈ l, seen.find? (fun e => e.1 == d.target) = none)
      ∧ (l.map Dotfile.target).Nodup := by
  induction l with
  | nil =>
    intro seen _
    exact ⟨fun d hd => absurd hd (List.not_mem_nil d), List.nodup_nil⟩
  | cons d rest ih =>
    intro seen h
    rw [conflictsAux_cons] at h
    cases hf : seen.find? (fun e => e.1 == d.target) with
    | some e =>
      rw [hf] at h
      exact List.noConfusion h
    | none =>
      rw [hf] at h
      obtain ⟨hfr, hnd⟩ := ih ((d.target, d.modname) :: seen) h
      have hfr2 : ∀ d2 ∈ rest, (d.target == d2.target) = false
          ∧ seen.find? (fun e => e.1 == d2.target) = none := by
        intro d2 hd2
        have := hfr d2 hd2
        exact (find?_cons_none (fun e => e.1 == d2.target)
          (d.target, d.modname) seen).mp this
      constructor
      · intro d2 hd2
        rcases List.mem_cons.mp hd2 with rfl | hd2r
        · exact hf
        · exact (hfr2 d2 hd2r).2
      · rw [List.map_cons]
        refine List.nodup_cons.mpr ⟨?_, hnd⟩
        intro hmem
        obtain ⟨d2, hd2, he⟩ := List.mem_map.mp hmem
        have := (hfr2 d2 hd2).1
        rw [he] at this
        simp at this

theorem nodup_of_no_conflicts (l : List Dotfile)
    (h : check_conflicts l = []) : (l.map Dotfile.target).Nodup :=
  (conflictsAux_nil_strong l [] h).2

theorem syncLinks_run (L : List Dotfile) : ∀ (fs : FS),
    (L.map Dotfile.target).Nodup →
    (∀ d ∈ L, ∀ d2 ∈ L, ¬ backupPath d.target = d2.target) →
    (∀ d ∈ L, isSymlinkAt fs d.source = false ∧ ∀ d2 ∈ L, ¬ d.source = d2.target) →
    (∀ d ∈ L, ∀ q, fsGet fs d.target = some (Entry.symlink q) →
        isSymlinkAt fs q = false ∧ ∀ d2 ∈ L, ¬ q = d2.target) →
    (∀ d ∈ L, fsGet (syncLinks false fs L).1 d.target = some (Entry.symlink d.source))
      ∧ (∀ x, (∀ d ∈ L, ¬ x = d.target) → isSymlinkAt fs x = false →
          isSymlinkAt (syncLinks false fs L).1 x = false)
      ∧ (∀ x, (∀ d ∈ L, ¬ x = d.target ∧ ¬ x = backupPath d.target) →
          ¬ fsGet fs x = none →
          fsGet (syncLinks false fs L).1 x = fsGet fs x) := by
  induction L with
  | nil =>
    intro fs _ _ _ _
    refine ⟨fun d hd => absurd hd (List.not_mem_nil d), fun x _ hx => hx, fun x _ _ => rfl⟩
  | cons d rest ih =>
    intro fs J1 J2 J3 J4
    rw [List.map_cons] at J1
    have hnd := List.nodup_cons.mp J1
    have hdtne : ∀ d2 ∈ rest, ¬ d.target = d2.target := by
      intro d2 hd2 he
      exact hnd.1 (he ▸ List.mem_map.mpr ⟨d2, hd2, rfl⟩)
    -- the state after processing link d, in both the no-op and mutate cases
    have hstep : ∃ fsd, (syncLinks false fs (d :: rest) = syncLinks false fsd rest
          ∨ (syncLinks false fs (d :: rest)).1 = (syncLinks false fsd rest).1)
        ∧ fsGet fsd d.target = some (Entry.symlink d.source)
        ∧ (∀ x, ¬ x = d.target → isSymlinkAt fs x = false → isSymlinkAt fsd x = false)
        ∧ (∀ x, ¬ x = d.target → ¬ x = backupPath d.target → ¬ fsGet fs x = none →
            fsGet fsd x = fsGet fs x)
        ∧ (∀ x, ¬ x = d.target → ¬ x = backupPath d.target →
            fsGet fsd x = fsGet fs x ∨ (fsGet fs x = none ∧ fsGet fsd x = some Entry.dir)) := by
      cases hnoop : noopCheck fs d with
      | true =>
        refine ⟨fs, Or.inl (by rw [syncLinks_cons, if_pos hnoop]), ?_,
          fun x _ hx => hx, fun x _ _ _ => rfl, fun x _ _ => Or.inl rfl⟩
        have hand := hnoop
        rw [noopCheck, Bool.and_eq_true] at hand
        obtain ⟨q, hq⟩ := get_symlink_of_isSymlinkAt hand.1
        obtain ⟨hqns, hqnt⟩ := J4 d (List.mem_cons_self d rest) q hq
        have hres : resolvePath fs d.target = q := resolve_symlink fs d.target q hq hqns
        have hsrcns : isSymlinkAt fs d.source = false :=
          (J3 d (List.mem_cons_self d rest)).1
        have hres2 : resolvePath fs d.source = d.source := resolve_nonsym fs d.source hsrcns
        have heq : q = d.source := by
          have := hand.2
          rw [hres, hres2] at this
          exact beq_iff_eq.mp this
        rw [← heq]
        exact hq
      | false =>
        refine ⟨(applyLink fs d).1, Or.inr ?_, applyLink_target fs d,
          fun x hxt hx => applyLink_nonsym fs d x hxt hx,
          fun x hxt hxb hp => applyLink_present fs d x hxt hxb hp,
          fun x hxt hxb => applyLink_other fs d x hxt hxb⟩
        rw [syncLinks_cons, if_neg (by rw [hnoop]; exact Bool.noConfusion),
          if_neg (Bool.noConfusion)]
    obtain ⟨fsd, hrun, htgt, hP1, hP2, hP3⟩ := hstep
    have hrun1 : (syncLinks false fs (d :: rest)).1 = (syncLinks false fsd rest).1 := by
      rcases hrun with h | h
      · rw [h]
      · exact h
    -- hypotheses of the induction hypothesis, at the state fsd
    have J3r : ∀ d2 ∈ rest, isSymlinkAt fsd d2.source = false
        ∧ ∀ d3 ∈ rest, ¬ d2.source = d3.target := by
      intro d2 hd2
      obtain ⟨hns, hnt⟩ := J3 d2 (List.mem_cons_of_mem _ hd2)
      refine ⟨hP1 d2.source (hnt d (List.mem_cons_self d rest)) hns,
        fun d3 hd3 => hnt d3 (List.mem_cons_of_mem _ hd3)⟩
    have J4r : ∀ d2 ∈ rest, ∀ q, fsGet fsd d2.target = some (Entry.symlink q) →
        isSymlinkAt fsd q = false ∧ ∀ d3 ∈ rest, ¬ q = d3.target := by
      intro d2 hd2 q hq
      have hne : ¬ d2.target = d.target := fun he => hdtne d2 hd2 he.symm
      have hneb : ¬ d2.target = backupPath d.target := by
        intro he
        exact J2 d (List.mem_cons_self d rest) d2 (List.mem_cons_of_mem _ hd2) he.symm
      rcases hP3 d2.target hne hneb with hsame | ⟨-, hdir⟩
      · rw [hsame] at hq
        obtain ⟨hqns, hqnt⟩ := J4 d2 (List.mem_cons_of_mem _ hd2) q hq
        refine ⟨hP1 q (hqnt d (List.mem_cons_self d rest)) hqns,
          fun d3 hd3 => hqnt d3 (List.mem_cons_of_mem _ hd3)⟩
      · rw [hdir] at hq
        exact absurd (Option.some.inj hq) (fun he => Entry.noConfusion he)
    have J2r : ∀ d2 ∈ rest, ∀ d3 ∈ rest, ¬ backupPath d2.target = d3.target :=
      fun d2 hd2 d3 hd3 =>
        J2 d2 (List.mem_cons_of_mem _ hd2) d3 (List.mem_cons_of_mem _ hd3)
    obtain ⟨ih1, ih2, ih3⟩ := ih fsd hnd.2 J2r J3r J4r
    refine ⟨?_, ?_, ?_⟩
    · intro d2 hd2
      rcases List.mem_cons.mp hd2 with rfl | hd2r
      · rw [hrun1]
        rw [ih3 d2.target ?_ (by rw [htgt]; exact fun he => Option.noConfusion he)]
        · exact htgt
        · intro d3 hd3
          refine ⟨fun he => hdtne d3 hd3 he, ?_⟩
          intro he
          exact J2 d3 (List.mem_cons_of_mem _ hd3) d2 (List.mem_cons_self d2 rest) he.symm
      · rw [hrun1]
        exact ih1 d2 hd2r
    · intro x hx hsx
      rw [hrun1]
      exact ih2 x (fun d2 hd2 => hx d2 (List.mem_cons_of_mem _ hd2))
        (hP1 x (hx d (List.mem_cons_self d rest)) hsx)
    · intro x hx hp
      rw [hrun1]
      have hxd := hx d (List.mem_cons_self d rest)
      have hfsd : fsGet fsd x = fsGet fs x := hP2 x hxd.1 hxd.2 hp
      rw [ih3 x (fun d2 hd2 => hx d2 (List.mem_cons_of_mem _ hd2))
        (by rw [hfsd]; exact hp), hfsd]

/-- Claim C7, counterexample: as stated the claim is false.  Links
`/s1 -> /t.bak` and `/s2 -> /t` with a regular file at `/t`: the first
run succeeds with no conflicts (it links `/t.bak`, then backs the file at
`/t` up by renaming it over that fresh symlink), but a second run with
the same declarations and the resulting filesystem performs further link
mutations, because the backup rename of run one clobbered the first
link's target. -/
theorem c7_counterexample :
    check_conflicts
        [⟨("/s1"), ("/t.bak"), ("m1")⟩, ⟨("/s2"), ("/t"), ("m2")⟩] = []
      ∧ (sync_dotfiles
          [⟨("/s1"), ("/t.bak"), ("m1")⟩, ⟨("/s2"), ("/t"), ("m2")⟩]
          [(("/t"), Entry.file), (("/s1"), Entry.file), (("/s2"), Entry.file)]
          false).2.2 = true
      ∧ ¬ (sync_dotfiles
          [⟨("/s1"), ("/t.bak"), ("m1")⟩, ⟨("/s2"), ("/t"), ("m2")⟩]
          ((sync_dotfiles
            [⟨("/s1"), ("/t.bak"), ("m1")⟩, ⟨("/s2"), ("/t"), ("m2")⟩]
            [(("/t"), Entry.file), (("/s1"), Entry.file), (("/s2"), Entry.file)]
            false).1)
          false).2.1 = [] := by
  refine ⟨rfl, rfl, ?_⟩
  decide

/-- Claim C7, amended: after a successful `sync_dotfiles` run with no
conflicts, a second run with unchanged declarations and filesystem
performs zero link mutations (every link hits the
already-a-symlink-to-the-same-canonical-source no-op branch), provided
the link set is well-separated: no backup path (`target + '.bak'`) of one
link is another link's target, no source is a target, sources are not
symlinks, and a pre-existing symlink at a target points to a path that is
neither a target nor itself a symlink.  (Without the backup-path proviso
the first run's backup rename can silently replace another link's fresh
symlink — the counterexample — and the second run mutates again.) -/
theorem c7_amended (L : List Dotfile) (fs0 : FS)
    (hconf : check_conflicts L = [])
    (hbak : ∀ d ∈ L, ∀ d2 ∈ L, ¬ backupPath d.target = d2.target)
    (hsrcT : ∀ d ∈ L, ∀ d2 ∈ L, ¬ d.source = d2.target)
    (hsrcNS : ∀ d ∈ L, isSymlinkAt fs0 d.source = false)
    (hpre : ∀ d ∈ L, ∀ q, fsGet fs0 d.target = some (Entry.symlink q) →
        isSymlinkAt fs0 q = false ∧ ∀ d2 ∈ L, ¬ q = d2.target) :
    (sync_dotfiles L fs0 false).2.2 = true
      ∧ sync_dotfiles L ((sync_dotfiles L fs0 false).1) false
          = ((sync_dotfiles L fs0 false).1, [], true) := by
  by_cases hL : L = []
  · subst hL
    exact ⟨rfl, rfl⟩
  · have hne : L.isEmpty = false := by
      cases L with
      | nil => exact absurd rfl hL
      | cons a as => rfl
    have hrun : sync_dotfiles L fs0 false
        = ((syncLinks false fs0 L).1, (syncLinks false fs0 L).2, true) := by
      show (if L.isEmpty then (fs0, [], true)
        else if !(check_conflicts L).isEmpty then (fs0, ([] : List Mut), false)
        else ((syncLinks false fs0 L).1, (syncLinks false fs0 L).2, true)) = _
      rw [hne, hconf]
      rfl
    obtain ⟨run1, run2, run3⟩ := syncLinks_run L fs0
      (nodup_of_no_conflicts L hconf) hbak
      (fun d hd => ⟨hsrcNS d hd, fun d2 hd2 => hsrcT d hd d2 hd2⟩) hpre
    have hnoop2 : ∀ d ∈ L,
        fsGet (syncLinks false fs0 L).1 d.target = some (Entry.symlink d.source)
          ∧ isSymlinkAt (syncLinks false fs0 L).1 d.source = false := by
      intro d hd
      refine ⟨run1 d hd, run2 d.source ?_ (hsrcNS d hd)⟩
      intro d2 hd2
      exact hsrcT d hd d2 hd2
    have hsecond : syncLinks false (syncLinks false fs0 L).1 L
        = ((syncLinks false fs0 L).1, []) :=
      syncLinks_noop L (syncLinks false fs0 L).1 hnoop2
    constructor
    · rw [hrun]
    · rw [hrun]
      show (if L.isEmpty then ((syncLinks false fs0 L).1, [], true)
        else if !(check_conflicts L).isEmpty
          then ((syncLinks false fs0 L).1, ([] : List Mut), false)
        else ((syncLinks false (syncLinks false fs0 L).1 L).1,
              (syncLinks false (syncLinks false fs0 L).1 L).2, true)) = _
      rw [hne, hconf, hsecond]
      rfl

/-- Claim C7, witness for the amended theorem at a concrete input: one
module linking one config directory entry; the first run creates the
symlink, the second run is a no-op. -/
theorem c7_witness :
    (sync_dotfiles [⟨("/m/a"), ("/home/u/.config/a"), ("mod")⟩]
        [(("/m/a"), Entry.file)] false).2.2 = true
      ∧ sync_dotfiles [⟨("/m/a"), ("/home/u/.config/a"), ("mod")⟩]
          ((sync_dotfiles [⟨("/m/a"), ("/home/u/.config/a"), ("mod")⟩]
            [(("/m/a"), Entry.file)] false).1) false
        = ((sync_dotfiles [⟨("/m/a"), ("/home/u/.config/a"), ("mod")⟩]
            [(("/m/a"), Entry.file)] false).1, [], true) :=
  c7_amended [⟨("/m/a"), ("/home/u/.config/a"), ("mod")⟩]
    [(("/m/a"), Entry.file)] rfl (by decide) (by decide) (by decide)
    (fun d hd q hq => by
      rcases List.mem_singleton.mp hd with rfl
      exact Option.noConfusion hq)
